import Mathlib

/-!
Verification of the TSI1 index-file compaction core (`index_files.go`).

The Go file orchestrates three sequential write passes over merged index
data and a trailer.  External collaborators (per-file iterators, the merge
iterators, the block encoders, the measurement block writer, the trailer
serializer and the filesystem) are modelled as parameters gathered in an
`Env` structure; iterators are modelled as lists, the output sink as a
list of labeled chunks whose byte content is given by the collaborator
output functions.
-/

namespace TSI1

/-- Byte strings are modelled as lists of naturals. -/
abbrev Bytes := List Nat

/-- Opaque error values (Go `error`). -/
abbrev Err := Nat

/-- A series element as yielded by a series iterator: `Name()`, `Tags()`
(kept opaque), `Deleted()`. -/
structure SeriesElem where
  name : Bytes
  tags : Bytes
  deleted : Bool
deriving DecidableEq, Repr

/-- A tag-value element: `Value()`, `Deleted()`. -/
structure TagValueElem where
  value : Bytes
  deleted : Bool
deriving DecidableEq, Repr

/-- A tag-key element: `Key()`, `Deleted()`, and its `TagValueIterator()`. -/
structure TagKeyElem where
  key : Bytes
  deleted : Bool
  values : List TagValueElem
deriving DecidableEq, Repr

/-- A measurement element: `Name()`, `Deleted()`. -/
structure MeasurementElem where
  name : Bytes
  deleted : Bool
deriving DecidableEq, Repr

/-- Outcome of `os.Stat` on one path: the file exists with a size and
modification time, does not exist (`os.IsNotExist`), or fails otherwise. -/
inductive StatOutcome where
  | found (size : Int) (modTime : Int)
  | notExist
  | failed (e : Err)
deriving DecidableEq, Repr

/-- One index file handle: its id, path and the per-entity iterator
factories (a factory returning `none` models a nil iterator). -/
structure IndexFile where
  id : Int
  path : Bytes
  measurementItr : Option (List MeasurementElem)
  tagKeyItr : Bytes → Option (List TagKeyElem)
  seriesItr : Option (List SeriesElem)
  measurementSeriesItr : Bytes → Option (List SeriesElem)
  tagValueSeriesItr : Bytes → Bytes → Bytes → Option (List SeriesElem)

/-- `IndexFiles represents a layered set of index files.` -/
abbrev IndexFiles := List IndexFile

/-- A call made against a tag block encoder: `EncodeKey(key, deleted)` or
`EncodeValue(value, deleted, seriesIDs)`. -/
inductive TagCall where
  | key (k : Bytes) (deleted : Bool)
  | value (v : Bytes) (deleted : Bool) (ids : List Nat)
deriving DecidableEq, Repr

/-- An `Add(name, deleted, offset, size, seriesIDs)` call against the
measurement block writer. -/
structure MeasAdd where
  name : Bytes
  deleted : Bool
  offset : Nat
  size : Nat
  ids : List Nat
deriving DecidableEq, Repr

/-- `IndexFileTrailer`: offset/size of the series block and of the
measurement block. -/
structure IndexFileTrailer where
  seriesOffset : Nat
  seriesSize : Nat
  measOffset : Nat
  measSize : Nat
deriving DecidableEq, Repr

/-- Behaviour of a `SeriesBlockEncoder`, as a function of the sequence of
`Encode` calls made so far: whether the next `Encode` fails, whether
`Close` fails, the total bytes the encoder writes (`N()` is its length),
and the `Offset(seriesKey)` lookup table (`0` = not found). -/
structure SeriesEncModel where
  encodeErr : List SeriesElem → SeriesElem → Option Err
  closeErr : List SeriesElem → Option Err
  output : List SeriesElem → Bytes
  offset : List SeriesElem → Bytes → Nat

/-- Behaviour of a `TagBlockEncoder` as a function of its call sequence. -/
structure TagEncModel where
  encodeErr : List TagCall → TagCall → Option Err
  closeErr : List TagCall → Option Err
  output : List TagCall → Bytes

/-- Behaviour of a `MeasurementBlockWriter`: `WriteTo` reports the bytes
written (counted even when it fails) and an optional error. -/
structure MeasWriterModel where
  output : List MeasAdd → Bytes
  err : List MeasAdd → Option Err

/-- Behaviour of `IndexFileTrailer.WriteTo`. -/
structure TrailerModel where
  output : IndexFileTrailer → Bytes
  err : IndexFileTrailer → Option Err

/-- The external collaborators consumed by the compaction core. -/
structure Env where
  fileSignature : Bytes
  mergeMeasurementIterators : List (List MeasurementElem) → List MeasurementElem
  mergeTagKeyIterators : List (List TagKeyElem) → List TagKeyElem
  mergeSeriesIterators : List (List SeriesElem) → List SeriesElem
  appendSeriesKey : Bytes → Bytes → Bytes
  magicErr : Option Err
  sEnc : SeriesEncModel
  tagEnc : Bytes → TagEncModel
  mw : MeasWriterModel
  trailer : TrailerModel
  flushErr : Option Err
  stat : Bytes → StatOutcome

/- ------------------------------------------------------------------ -/
/- Collection façade                                                   -/
/- ------------------------------------------------------------------ -/

/-- The `a := make(...); for ...: if itr != nil { a = append(a, itr) }`
loop shared by every merge-iterator constructor. -/
def collectItrs {α : Type} (sel : IndexFile → Option α) (acc : List α) :
    IndexFiles → List α
  | [] => acc
  | f :: rest =>
    match sel f with
    | none => collectItrs sel acc rest
    | some itr => collectItrs sel (acc ++ [itr]) rest

/-- `IDs returns the ids for all index files.` -/
def IndexFiles.IDs (p : IndexFiles) : List Int :=
  p.map (fun f => f.id)

/-- `MeasurementIterator returns an iterator that merges measurements
across all files.` -/
def IndexFiles.MeasurementIterator (env : Env) (p : IndexFiles) :
    List MeasurementElem :=
  env.mergeMeasurementIterators (collectItrs (fun f => f.measurementItr) [] p)

/-- `TagKeyIterator returns an iterator that merges tag keys across all
files.`  The Go function returns `(itr, error)`. -/
def IndexFiles.TagKeyIterator (env : Env) (p : IndexFiles) (name : Bytes) :
    List TagKeyElem × Option Err :=
  (env.mergeTagKeyIterators (collectItrs (fun f => f.tagKeyItr name) [] p), none)

/-- `SeriesIterator returns an iterator that merges series across all
files.` -/
def IndexFiles.SeriesIterator (env : Env) (p : IndexFiles) : List SeriesElem :=
  env.mergeSeriesIterators (collectItrs (fun f => f.seriesItr) [] p)

/-- `MeasurementSeriesIterator returns an iterator that merges series
across all files` for one measurement. -/
def IndexFiles.MeasurementSeriesIterator (env : Env) (p : IndexFiles)
    (name : Bytes) : List SeriesElem :=
  env.mergeSeriesIterators (collectItrs (fun f => f.measurementSeriesItr name) [] p)

/-- `TagValueSeriesIterator returns an iterator that merges series across
all files` for one (measurement, key, value) triple. -/
def IndexFiles.TagValueSeriesIterator (env : Env) (p : IndexFiles)
    (name key value : Bytes) : List SeriesElem :=
  env.mergeSeriesIterators
    (collectItrs (fun f => f.tagValueSeriesItr name key value) [] p)

/-- The `for e := itr.Next(); ...` loop of `MeasurementNames`, collecting
copies of the names. -/
def collectNames (acc : List Bytes) : List MeasurementElem → List Bytes
  | [] => acc
  | e :: rest => collectNames (acc ++ [e.name]) rest

/-- `MeasurementNames returns a sorted list of all measurement names for
all files.` (`sort.Sort(byteSlices(names))` = lexicographic sort). -/
def IndexFiles.MeasurementNames (env : Env) (p : IndexFiles) : List Bytes :=
  List.insertionSort (· ≤ ·) (collectNames [] (IndexFiles.MeasurementIterator env p))

/-- `IndexFilesInfo`: max file size, total size, latest modification. -/
structure IndexFilesInfo where
  MaxSize : Int
  Size : Int
  ModTime : Int
deriving DecidableEq, Repr

/-- The loop of `Stat`: skip files whose stat reports not-found, abort on
any other stat failure, otherwise fold sizes and mod-times. -/
def statLoop (env : Env) (info : IndexFilesInfo) :
    IndexFiles → Except Err IndexFilesInfo
  | [] => .ok info
  | f :: rest =>
    match env.stat f.path with
    | .notExist => statLoop env info rest
    | .failed e => .error e
    | .found size modTime =>
      statLoop env
        { MaxSize := if size > info.MaxSize then size else info.MaxSize
          ModTime := if modTime > info.ModTime then modTime else info.ModTime
          Size := info.Size + size } rest

/-- `Stat returns the max index file size and the total file size for all
index files.`  A `.error` result models returning `(nil, err)`. -/
def IndexFiles.Stat (env : Env) (p : IndexFiles) : Except Err IndexFilesInfo :=
  statLoop env { MaxSize := 0, Size := 0, ModTime := 0 } p

/- ------------------------------------------------------------------ -/
/- Compaction writer                                                   -/
/- ------------------------------------------------------------------ -/

/-- One labeled segment of the output stream: who wrote it and the calls
that produced it.  Its byte content is recovered through `chunkBytes`. -/
inductive Chunk where
  | magic
  | series (entries : List SeriesElem)
  | tagset (name : Bytes) (calls : List TagCall)
  | meas (adds : List MeasAdd)
  | trailer (t : IndexFileTrailer)
deriving DecidableEq, Repr

/-- The bytes a chunk contributes to the sink. -/
def chunkBytes (env : Env) : Chunk → Bytes
  | .magic => env.fileSignature
  | .series entries => env.sEnc.output entries
  | .tagset name calls => (env.tagEnc name).output calls
  | .meas adds => env.mw.output adds
  | .trailer t => env.trailer.output t

/-- Mutable state threaded through the passes: the sink contents, the
byte counter `n`, and the compaction context (`indexCompactInfo`): the
retained series encoder (as the list of entries it encoded) and the
per-measurement tagset position map (`tagSets`, newest binding first). -/
structure WCtx where
  stream : List Chunk
  n : Nat
  encEntries : List SeriesElem
  tagSets : List (Bytes × (Nat × Nat))
deriving DecidableEq, Repr

/-- Go map read `info.tagSets[string(name)]`: first binding wins, a
missing key yields the zero value `(0, 0)`. -/
def lookupTagSet (m : List (Bytes × (Nat × Nat))) (k : Bytes) : Nat × Nat :=
  match m.find? (fun kv => kv.1 == k) with
  | some kv => kv.2
  | none => (0, 0)

/-- Result of one pass: normal return, early error return, or a Go
`panic` escaping the pass. -/
inductive PResult (α : Type) where
  | ok (a : α)
  | err (e : Err) (a : α)
  | panicked (a : α)
deriving DecidableEq, Repr

/-- Result of `WriteTo`: `(n, nil)` after a successful flush, `(n, err)`
on an early return, or a panic.  The stream is carried for inspection. -/
inductive WriteResult where
  | ok (n : Nat) (stream : List Chunk)
  | err (e : Err) (n : Nat) (stream : List Chunk)
  | panicked (stream : List Chunk)
deriving DecidableEq, Repr

/-- The `for e := itr.Next(); ...` loop of `writeSeriesBlockTo`: encode
each series, returning the first `Encode` error together with the
entries already encoded. -/
def encodeSeriesLoop (m : SeriesEncModel) (done : List SeriesElem) :
    List SeriesElem → Option (Err × List SeriesElem)
  | [] => none
  | e :: rest =>
    match m.encodeErr done e with
    | some err => some (err, done)
    | none => encodeSeriesLoop m (done ++ [e]) rest

/-- `writeSeriesBlockTo`: encode every merged series; `Close`; add
`enc.N()` to `n`; on success retain the encoder in the context. -/
def IndexFiles.writeSeriesBlockTo (env : Env) (p : IndexFiles) (ctx : WCtx) :
    PResult WCtx :=
  let es := IndexFiles.SeriesIterator env p
  match encodeSeriesLoop env.sEnc [] es with
  | some (e, done) => .err e { ctx with stream := ctx.stream ++ [.series done] }
  | none =>
    let n' := ctx.n + (env.sEnc.output es).length
    match env.sEnc.closeErr es with
    | some e => .err e { ctx with stream := ctx.stream ++ [.series es], n := n' }
    | none =>
      .ok { ctx with stream := ctx.stream ++ [.series es], n := n',
                     encEntries := es }

/-- The innermost loop shared by `writeTagsetTo` and
`writeMeasurementBlockTo`: resolve every series of the iterator to its
surrogate identifier via `info.enc.Offset(AppendSeriesKey(name, tags))`;
a lookup returning the reserved identifier `0` panics (`none`). -/
def lookupSeriesIDs (off : Bytes → Nat) (ask : Bytes → Bytes → Bytes) :
    List SeriesElem → Option (List Nat)
  | [] => some []
  | se :: rest =>
    let seriesID := off (ask se.name se.tags)
    if seriesID = 0 then none
    else
      match lookupSeriesIDs off ask rest with
      | none => none
      | some ids => some (seriesID :: ids)

/-- Identifier resolution followed by `sort.Sort(uint64Slice(seriesIDs))`. -/
def resolveSortedIDs (off : Bytes → Nat) (ask : Bytes → Bytes → Bytes)
    (l : List SeriesElem) : Option (List Nat) :=
  (lookupSeriesIDs off ask l).map (List.insertionSort (· ≤ ·))

/-- The tag-value loop of `writeTagsetTo`: for each value, gather and
resolve the merged series, then `EncodeValue`. -/
def encodeTagValuesLoop (env : Env) (p : IndexFiles) (tm : TagEncModel)
    (encEntries : List SeriesElem) (name key : Bytes) (calls : List TagCall) :
    List TagValueElem → PResult (List TagCall)
  | [] => .ok calls
  | ve :: rest =>
    let sitr := IndexFiles.TagValueSeriesIterator env p name key ve.value
    match resolveSortedIDs (env.sEnc.offset encEntries) env.appendSeriesKey sitr with
    | none => .panicked calls
    | some ids =>
      let call := TagCall.value ve.value ve.deleted ids
      match tm.encodeErr calls call with
      | some e => .err e calls
      | none => encodeTagValuesLoop env p tm encEntries name key (calls ++ [call]) rest

/-- The tag-key loop of `writeTagsetTo`: `EncodeKey`, then the value loop. -/
def encodeTagKeysLoop (env : Env) (p : IndexFiles) (tm : TagEncModel)
    (encEntries : List SeriesElem) (name : Bytes) (calls : List TagCall) :
    List TagKeyElem → PResult (List TagCall)
  | [] => .ok calls
  | ke :: rest =>
    let call := TagCall.key ke.key ke.deleted
    match tm.encodeErr calls call with
    | some e => .err e calls
    | none =>
      match encodeTagValuesLoop env p tm encEntries name ke.key (calls ++ [call]) ke.values with
      | .ok calls' => encodeTagKeysLoop env p tm encEntries name calls' rest
      | .err e calls' => .err e calls'
      | .panicked calls' => .panicked calls'

/-- `writeTagsetTo writes a single tagset to w and saves the tagset
offset.`  The offset is the value of `n` before `Close`, the size is the
encoder's `N()`; the position is saved only when `Close` succeeds. -/
def IndexFiles.writeTagsetTo (env : Env) (p : IndexFiles) (name : Bytes)
    (ctx : WCtx) : PResult WCtx :=
  match IndexFiles.TagKeyIterator env p name with
  | (_, some e) => .err e ctx
  | (kitr, none) =>
    let tm := env.tagEnc name
    match encodeTagKeysLoop env p tm ctx.encEntries name [] kitr with
    | .panicked calls =>
      .panicked { ctx with stream := ctx.stream ++ [.tagset name calls] }
    | .err e calls =>
      .err e { ctx with stream := ctx.stream ++ [.tagset name calls] }
    | .ok calls =>
      let offset := ctx.n
      let n' := ctx.n + (tm.output calls).length
      match tm.closeErr calls with
      | some e =>
        .err e { ctx with stream := ctx.stream ++ [.tagset name calls], n := n' }
      | none =>
        .ok { ctx with stream := ctx.stream ++ [.tagset name calls], n := n',
                       tagSets := (name, (offset, n' - offset)) :: ctx.tagSets }

/-- The measurement loop of `writeTagsetsTo`. -/
def writeTagsetsLoop (env : Env) (p : IndexFiles) (ctx : WCtx) :
    List MeasurementElem → PResult WCtx
  | [] => .ok ctx
  | m :: rest =>
    match IndexFiles.writeTagsetTo env p m.name ctx with
    | .ok ctx' => writeTagsetsLoop env p ctx' rest
    | .err e ctx' => .err e ctx'
    | .panicked ctx' => .panicked ctx'

/-- `writeTagsetsTo`: one tagset per merged measurement, in merged
measurement order. -/
def IndexFiles.writeTagsetsTo (env : Env) (p : IndexFiles) (ctx : WCtx) :
    PResult WCtx :=
  writeTagsetsLoop env p ctx (IndexFiles.MeasurementIterator env p)

/-- The measurement loop of `writeMeasurementBlockTo`: for each merged
measurement, resolve and sort its series identifiers (panicking on a
zero lookup) and read its tagset position from the map; `none` models
the panic escaping. -/
def buildMeasAdds (env : Env) (p : IndexFiles) (encEntries : List SeriesElem)
    (tagSets : List (Bytes × (Nat × Nat))) :
    List MeasurementElem → Option (List MeasAdd)
  | [] => some []
  | m :: rest =>
    match resolveSortedIDs (env.sEnc.offset encEntries) env.appendSeriesKey
        (IndexFiles.MeasurementSeriesIterator env p m.name) with
    | none => none
    | some ids =>
      let pos := lookupTagSet tagSets m.name
      match buildMeasAdds env p encEntries tagSets rest with
      | none => none
      | some adds =>
        some ({ name := m.name, deleted := m.deleted,
                offset := pos.1, size := pos.2, ids := ids } :: adds)

/-- `writeMeasurementBlockTo`: add every merged measurement to the
writer, then `mw.WriteTo(w)`; `nn` is added to `n` even when the write
fails. -/
def IndexFiles.writeMeasurementBlockTo (env : Env) (p : IndexFiles)
    (ctx : WCtx) : PResult WCtx :=
  match buildMeasAdds env p ctx.encEntries ctx.tagSets
      (IndexFiles.MeasurementIterator env p) with
  | none => .panicked ctx
  | some adds =>
    let n' := ctx.n + (env.mw.output adds).length
    let ctx' := { ctx with stream := ctx.stream ++ [.meas adds], n := n' }
    match env.mw.err adds with
    | some e => .err e ctx'
    | none => .ok ctx'

/-- `WriteTo merges all index files and writes them to w.`  Wraps the
sink in a buffered writer; writes magic, series block, tagset blocks,
measurement block and trailer in order; flushes; returns `(n, err)`. -/
def IndexFiles.WriteTo (env : Env) (p : IndexFiles) : WriteResult :=
  let ctx0 : WCtx := { stream := [], n := 0, encEntries := [], tagSets := [] }
  match env.magicErr with
  | some e => .err e ctx0.n ctx0.stream
  | none =>
    let ctx1 := { ctx0 with stream := ctx0.stream ++ [Chunk.magic],
                            n := ctx0.n + env.fileSignature.length }
    let sbOffset := ctx1.n
    match IndexFiles.writeSeriesBlockTo env p ctx1 with
    | .err e ctx => .err e ctx.n ctx.stream
    | .panicked ctx => .panicked ctx.stream
    | .ok ctx2 =>
      let sbSize := ctx2.n - sbOffset
      match IndexFiles.writeTagsetsTo env p ctx2 with
      | .err e ctx => .err e ctx.n ctx.stream
      | .panicked ctx => .panicked ctx.stream
      | .ok ctx3 =>
        let mbOffset := ctx3.n
        match IndexFiles.writeMeasurementBlockTo env p ctx3 with
        | .err e ctx => .err e ctx.n ctx.stream
        | .panicked ctx => .panicked ctx.stream
        | .ok ctx4 =>
          let mbSize := ctx4.n - mbOffset
          let t : IndexFileTrailer :=
            { seriesOffset := sbOffset, seriesSize := sbSize,
              measOffset := mbOffset, measSize := mbSize }
          let n5 := ctx4.n + (env.trailer.output t).length
          let stream5 := ctx4.stream ++ [Chunk.trailer t]
          match env.trailer.err t with
          | some e => .err e n5 stream5
          | none =>
            match env.flushErr with
            | some e => .err e n5 stream5
            | none => .ok n5 stream5

/- ------------------------------------------------------------------ -/
/- Pure success-path descriptions of the passes                        -/
/- ------------------------------------------------------------------ -/

/-- The full tag-encoder call list the value loop produces for one tag
key when no error interrupts it (`none` = a zero lookup panics). -/
def valueCallsOf (env : Env) (p : IndexFiles) (encEntries : List SeriesElem)
    (name key : Bytes) : List TagValueElem → Option (List TagCall)
  | [] => some []
  | ve :: rest =>
    match resolveSortedIDs (env.sEnc.offset encEntries) env.appendSeriesKey
        (IndexFiles.TagValueSeriesIterator env p name key ve.value) with
    | none => none
    | some ids =>
      (valueCallsOf env p encEntries name key rest).map
        (fun cs => TagCall.value ve.value ve.deleted ids :: cs)

/-- The full tag-encoder call list the key loop produces when no error
interrupts it. -/
def keyCallsOf (env : Env) (p : IndexFiles) (encEntries : List SeriesElem)
    (name : Bytes) : List TagKeyElem → Option (List TagCall)
  | [] => some []
  | ke :: rest =>
    match valueCallsOf env p encEntries name ke.key ke.values,
        keyCallsOf env p encEntries name rest with
    | some vcs, some rcs => some (TagCall.key ke.key ke.deleted :: (vcs ++ rcs))
    | _, _ => none

/-- The complete call list of one measurement's tag block encoder. -/
def tagCallsOf (env : Env) (p : IndexFiles) (encEntries : List SeriesElem)
    (name : Bytes) : Option (List TagCall) :=
  keyCallsOf env p encEntries name (IndexFiles.TagKeyIterator env p name).1

/-- The byte count of one measurement's tag block on the success path. -/
def tagsetSize (env : Env) (p : IndexFiles) (encEntries : List SeriesElem)
    (name : Bytes) : Nat :=
  match tagCallsOf env p encEntries name with
  | some cs => ((env.tagEnc name).output cs).length
  | none => 0

/-- The tag-block chunk written for one measurement on the success path. -/
def tagsetChunkOf (env : Env) (p : IndexFiles) (encEntries : List SeriesElem)
    (name : Bytes) : Chunk :=
  Chunk.tagset name ((tagCallsOf env p encEntries name).getD [])

/-- The tagset-position bindings pass 2 pushes onto the map, newest
first, when it starts at byte position `startN`. -/
def tagSetEntriesOf (env : Env) (p : IndexFiles) (encEntries : List SeriesElem)
    (startN : Nat) : List MeasurementElem → List (Bytes × (Nat × Nat))
  | [] => []
  | m :: rest =>
    tagSetEntriesOf env p encEntries
        (startN + tagsetSize env p encEntries m.name) rest
      ++ [(m.name, (startN, tagsetSize env p encEntries m.name))]

/-- The series every tag-value series iterator of pass 2 yields. -/
def pass2SeriesOf (env : Env) (p : IndexFiles) : List SeriesElem :=
  (IndexFiles.MeasurementIterator env p).flatMap (fun m =>
    ((IndexFiles.TagKeyIterator env p m.name).1).flatMap (fun ke =>
      ke.values.flatMap (fun ve =>
        IndexFiles.TagValueSeriesIterator env p m.name ke.key ve.value)))

/-- The series every measurement-scoped series iterator of pass 3 yields. -/
def pass3SeriesOf (env : Env) (p : IndexFiles) : List SeriesElem :=
  (IndexFiles.MeasurementIterator env p).flatMap (fun m =>
    IndexFiles.MeasurementSeriesIterator env p m.name)

/-- The series key of an element, `AppendSeriesKey(e.Name(), e.Tags())`. -/
def seriesKeyOf (env : Env) (e : SeriesElem) : Bytes :=
  env.appendSeriesKey e.name e.tags

/- ------------------------------------------------------------------ -/
/- Observation helpers                                                 -/
/- ------------------------------------------------------------------ -/

/-- The stream recorded in a `WriteTo` result. -/
def WriteResult.streamOf : WriteResult → List Chunk
  | .ok _ s => s
  | .err _ _ s => s
  | .panicked s => s

/-- Whether a chunk is a trailer. -/
def Chunk.isTrailerChunk : Chunk → Bool
  | .trailer _ => true
  | _ => false

/-- The flat byte content of a stream. -/
def streamBytes (env : Env) (s : List Chunk) : Bytes :=
  (s.map (chunkBytes env)).flatten

/-- Every series-identifier list inside a tag-encoder call is strictly
ascending. -/
def callIDsSorted : TagCall → Prop
  | .key _ _ => True
  | .value _ _ ids => List.Sorted (· < ·) ids

/-- Every series-identifier list inside a chunk is strictly ascending. -/
def chunkIDsSorted : Chunk → Prop
  | .tagset _ calls => ∀ c ∈ calls, callIDsSorted c
  | .meas adds => ∀ a ∈ adds, List.Sorted (· < ·) a.ids
  | _ => True

/-- The state carried by a pass result, whichever way the pass ended. -/
def PResult.payload {α : Type} : PResult α → α
  | .ok a => a
  | .err _ a => a
  | .panicked a => a

/-- Sizes and mod-times of the files whose stat succeeds ("remaining"). -/
def remainingStats (env : Env) (p : IndexFiles) : List (Int × Int) :=
  p.filterMap (fun f =>
    match env.stat f.path with
    | .found size modTime => some (size, modTime)
    | _ => none)

/-- The first non-not-found stat failure, in collection order. -/
def firstStatErr (env : Env) (p : IndexFiles) : Option Err :=
  p.findSome? (fun f =>
    match env.stat f.path with
    | .failed e => some e
    | _ => none)

/- ------------------------------------------------------------------ -/
/- A small concrete instantiation used to exercise the definitions     -/
/- ------------------------------------------------------------------ -/

/-- One concrete series (`cpu{host=a}` with opaque byte names). -/
def seriesW : SeriesElem := { name := [3], tags := [7], deleted := false }

/-- One concrete index file holding a single measurement `[3]` with tag
key `[5]`, tag value `[9]` and the single series `seriesW`. -/
def fileW : IndexFile :=
  { id := 1
    path := [2]
    measurementItr := some [{ name := [3], deleted := false }]
    tagKeyItr := fun _ => some [{ key := [5], deleted := false,
                                  values := [{ value := [9], deleted := false }] }]
    seriesItr := some [seriesW]
    measurementSeriesItr := fun _ => some [seriesW]
    tagValueSeriesItr := fun _ _ _ => some [seriesW] }

/-- Concrete collaborators: merges concatenate the sub-iterators, the
series encoder assigns identifier `1` to every key, encoders report one
byte per call, nothing fails. -/
def envW : Env :=
  { fileSignature := [84, 83, 73, 49]
    mergeMeasurementIterators := List.flatten
    mergeTagKeyIterators := List.flatten
    mergeSeriesIterators := List.flatten
    appendSeriesKey := fun n t => n ++ t
    magicErr := none
    sEnc := { encodeErr := fun _ _ => none, closeErr := fun _ => none,
              output := fun es => es.map (fun _ => 0),
              offset := fun _ _ => 1 }
    tagEnc := fun _ => { encodeErr := fun _ _ => none, closeErr := fun _ => none,
                         output := fun calls => calls.map (fun _ => 1) }
    mw := { output := fun adds => adds.map (fun _ => 2), err := fun _ => none }
    trailer := { output := fun _ => [9, 9, 9], err := fun _ => none }
    flushErr := none
    stat := fun path => if path = [2] then .found 10 5 else .notExist }

/-- The chunk stream `WriteTo envW [fileW]` produces (used as a concrete
test vector). -/
def streamW : List Chunk :=
  [Chunk.magic, Chunk.series [seriesW],
   Chunk.tagset [3] [TagCall.key [5] false, TagCall.value [9] false [1]],
   Chunk.meas [{ name := [3], deleted := false, offset := 5, size := 2,
                 ids := [1] }],
   Chunk.trailer { seriesOffset := 4, seriesSize := 1, measOffset := 7,
                   measSize := 1 }]

/-- The compaction context right after pass 1 of `WriteTo envW [fileW]`
(used as a concrete test vector). -/
def ctxW : WCtx :=
  { stream := [Chunk.magic, Chunk.series [seriesW]], n := 5,
    encEntries := [seriesW], tagSets := [] }

/-- The compaction context after pass 2 of `WriteTo envW [fileW]`. -/
def ctxW2 : WCtx :=
  { stream := [Chunk.magic, Chunk.series [seriesW],
      Chunk.tagset [3] [TagCall.key [5] false, TagCall.value [9] false [1]]],
    n := 7, encEntries := [seriesW], tagSets := [([3], (5, 2))] }

/- ------------------------------------------------------------------ -/
/- Expected success-path output                                        -/
/- ------------------------------------------------------------------ -/

/-- The merged series list the series-block pass iterates. -/
def mergedSeries (env : Env) (p : IndexFiles) : List SeriesElem :=
  IndexFiles.SeriesIterator env p

/-- The merged measurement list passes 2 and 3 iterate. -/
def mergedMeasurements (env : Env) (p : IndexFiles) : List MeasurementElem :=
  IndexFiles.MeasurementIterator env p

/-- The byte count the series-block encoder reports. -/
def seriesBlockLen (env : Env) (p : IndexFiles) : Nat :=
  (env.sEnc.output (mergedSeries env p)).length

/-- The total bytes of every tagset block. -/
def tagBlocksLen (env : Env) (p : IndexFiles) : Nat :=
  ((mergedMeasurements env p).map
    (fun m => tagsetSize env p (mergedSeries env p) m.name)).sum

/-- The tagset-position map after pass 2 of a successful `WriteTo`. -/
def passTwoTagSets (env : Env) (p : IndexFiles) : List (Bytes × (Nat × Nat)) :=
  tagSetEntriesOf env p (mergedSeries env p)
    (env.fileSignature.length + seriesBlockLen env p) (mergedMeasurements env p)

/-- The `Add` calls pass 3 issues on a successful `WriteTo`. -/
def measAddsOf (env : Env) (p : IndexFiles) : Option (List MeasAdd) :=
  buildMeasAdds env p (mergedSeries env p) (passTwoTagSets env p)
    (mergedMeasurements env p)

/-- The trailer a successful `WriteTo` writes. -/
def trailerOf (env : Env) (p : IndexFiles) (adds : List MeasAdd) :
    IndexFileTrailer :=
  { seriesOffset := env.fileSignature.length
    seriesSize := seriesBlockLen env p
    measOffset := env.fileSignature.length + seriesBlockLen env p
      + tagBlocksLen env p
    measSize := (env.mw.output adds).length }

/-- The chunk stream a successful `WriteTo` emits. -/
def expectedStream (env : Env) (p : IndexFiles) (adds : List MeasAdd) :
    List Chunk :=
  Chunk.magic :: Chunk.series (mergedSeries env p)
    :: (mergedMeasurements env p).map
        (fun m => tagsetChunkOf env p (mergedSeries env p) m.name)
    ++ [Chunk.meas adds, Chunk.trailer (trailerOf env p adds)]

/-- The byte count a successful `WriteTo` returns. -/
def expectedN (env : Env) (p : IndexFiles) (adds : List MeasAdd) : Nat :=
  env.fileSignature.length + seriesBlockLen env p + tagBlocksLen env p
    + (env.mw.output adds).length
    + (env.trailer.output (trailerOf env p adds)).length

/- ================================================================== -/
/- Basic lemmas                                                        -/
/- ================================================================== -/

theorem collectItrs_eq {α : Type} (sel : IndexFile → Option α) :
    ∀ (l : IndexFiles) (acc : List α),
      collectItrs sel acc l = acc ++ l.filterMap sel
  | [], acc => by simp [collectItrs]
  | f :: rest, acc => by
    cases h : sel f with
    | none => simp [collectItrs, h, collectItrs_eq sel rest acc]
    | some itr => simp [collectItrs, h, collectItrs_eq sel rest (acc ++ [itr])]

theorem collectNames_eq :
    ∀ (l : List MeasurementElem) (acc : List Bytes),
      collectNames acc l = acc ++ l.map (fun e => e.name)
  | [], acc => by simp [collectNames]
  | e :: rest, acc => by
    simp [collectNames, collectNames_eq rest (acc ++ [e.name])]

/-- C7: each merge-iterator constructor passes exactly the non-nil
per-file sub-iterators, in collection order, to the merge collaborator;
when every file reports no data (in particular on an empty collection)
it passes zero sub-iterators so the result is the empty sequence, and no
constructor reports an error (`TagKeyIterator` always returns nil). -/
theorem claim_C7 (env : Env) (p : IndexFiles)
    (hm : env.mergeMeasurementIterators [] = [])
    (hk : env.mergeTagKeyIterators [] = [])
    (hs : env.mergeSeriesIterators [] = []) :
    (IndexFiles.MeasurementIterator env p
      = env.mergeMeasurementIterators (p.filterMap (fun f => f.measurementItr))) ∧
    (∀ name, IndexFiles.TagKeyIterator env p name
      = (env.mergeTagKeyIterators (p.filterMap (fun f => f.tagKeyItr name)), none)) ∧
    (IndexFiles.SeriesIterator env p
      = env.mergeSeriesIterators (p.filterMap (fun f => f.seriesItr))) ∧
    (∀ name, IndexFiles.MeasurementSeriesIterator env p name
      = env.mergeSeriesIterators (p.filterMap (fun f => f.measurementSeriesItr name))) ∧
    (∀ name key value, IndexFiles.TagValueSeriesIterator env p name key value
      = env.mergeSeriesIterators
          (p.filterMap (fun f => f.tagValueSeriesItr name key value))) ∧
    ((∀ f ∈ p, f.measurementItr = none) →
      IndexFiles.MeasurementIterator env p = []) ∧
    (∀ name, (∀ f ∈ p, f.tagKeyItr name = none) →
      (IndexFiles.TagKeyIterator env p name).1 = []) ∧
    ((∀ f ∈ p, f.seriesItr = none) → IndexFiles.SeriesIterator env p = []) ∧
    (∀ name, (∀ f ∈ p, f.measurementSeriesItr name = none) →
      IndexFiles.MeasurementSeriesIterator env p name = []) ∧
    (∀ name key value, (∀ f ∈ p, f.tagValueSeriesItr name key value = none) →
      IndexFiles.TagValueSeriesIterator env p name key value = []) ∧
    (∀ name, (IndexFiles.TagKeyIterator env p name).2 = none) := by
  refine ⟨?_, ?_, ?_, ?_, ?_, ?_, ?_, ?_, ?_, ?_, ?_⟩
  · simp [IndexFiles.MeasurementIterator, collectItrs_eq]
  · intro name; simp [IndexFiles.TagKeyIterator, collectItrs_eq]
  · simp [IndexFiles.SeriesIterator, collectItrs_eq]
  · intro name; simp [IndexFiles.MeasurementSeriesIterator, collectItrs_eq]
  · intro name key value; simp [IndexFiles.TagValueSeriesIterator, collectItrs_eq]
  · intro h
    have : p.filterMap (fun f => f.measurementItr) = [] :=
      List.filterMap_eq_nil_iff.mpr h
    simp [IndexFiles.MeasurementIterator, collectItrs_eq, this, hm]
  · intro name h
    have : p.filterMap (fun f => f.tagKeyItr name) = [] :=
      List.filterMap_eq_nil_iff.mpr h
    simp [IndexFiles.TagKeyIterator, collectItrs_eq, this, hk]
  · intro h
    have : p.filterMap (fun f => f.seriesItr) = [] :=
      List.filterMap_eq_nil_iff.mpr h
    simp [IndexFiles.SeriesIterator, collectItrs_eq, this, hs]
  · intro name h
    have : p.filterMap (fun f => f.measurementSeriesItr name) = [] :=
      List.filterMap_eq_nil_iff.mpr h
    simp [IndexFiles.MeasurementSeriesIterator, collectItrs_eq, this, hs]
  · intro name key value h
    have : p.filterMap (fun f => f.tagValueSeriesItr name key value) = [] :=
      List.filterMap_eq_nil_iff.mpr h
    simp [IndexFiles.TagValueSeriesIterator, collectItrs_eq, this, hs]
  · intro name; simp [IndexFiles.TagKeyIterator]

/-- Witness for C7 at a concrete environment and collection. -/
theorem claim_C7_witness :
    IndexFiles.MeasurementIterator envW [] = [] := by
  have h := claim_C7 envW [] (by decide) (by decide) (by decide)
  exact h.2.2.2.2.2.1 (by intro f hf; cases hf)

/-- C8: `MeasurementNames` returns the lexicographically sorted sequence
of the names the merged measurement iterator yields, with exactly one
copy of each (dedup holds because the merged iterator is duplicate-free). -/
theorem claim_C8 (env : Env) (p : IndexFiles)
    (hnd : ((IndexFiles.MeasurementIterator env p).map (fun e => e.name)).Nodup) :
    List.Sorted (· ≤ ·) (IndexFiles.MeasurementNames env p) ∧
    (IndexFiles.MeasurementNames env p).Perm
      ((IndexFiles.MeasurementIterator env p).map (fun e => e.name)) ∧
    (IndexFiles.MeasurementNames env p).Nodup ∧
    (∀ b, b ∈ IndexFiles.MeasurementNames env p ↔
      b ∈ (IndexFiles.MeasurementIterator env p).map (fun e => e.name)) := by
  have hco : collectNames [] (IndexFiles.MeasurementIterator env p)
      = (IndexFiles.MeasurementIterator env p).map (fun e => e.name) := by
    simpa using collectNames_eq (IndexFiles.MeasurementIterator env p) []
  have hperm : (IndexFiles.MeasurementNames env p).Perm
      ((IndexFiles.MeasurementIterator env p).map (fun e => e.name)) := by
    rw [IndexFiles.MeasurementNames, hco]
    exact List.perm_insertionSort _ _
  have hnodup : (IndexFiles.MeasurementNames env p).Nodup :=
    hperm.symm.nodup hnd
  refine ⟨?_, hperm, hnodup, ?_⟩
  · rw [IndexFiles.MeasurementNames]
    exact List.sorted_insertionSort _ _
  · intro b
    exact hperm.mem_iff

/-- Witness for C8 at a concrete environment and collection. -/
theorem claim_C8_witness :
    List.Sorted (· ≤ ·) (IndexFiles.MeasurementNames envW [fileW]) ∧
    (IndexFiles.MeasurementNames envW [fileW]).Perm
      ((IndexFiles.MeasurementIterator envW [fileW]).map (fun e => e.name)) ∧
    (IndexFiles.MeasurementNames envW [fileW]).Nodup ∧
    (∀ b, b ∈ IndexFiles.MeasurementNames envW [fileW] ↔
      b ∈ (IndexFiles.MeasurementIterator envW [fileW]).map (fun e => e.name)) :=
  claim_C8 envW [fileW] (by decide)

/- ================================================================== -/
/- Stat (C6)                                                           -/
/- ================================================================== -/

theorem foldl_max_init_le : ∀ (l : List Int) (a : Int), a ≤ l.foldl max a
  | [], a => le_refl a
  | x :: rest, a => le_trans (le_max_left a x) (foldl_max_init_le rest (max a x))

theorem foldl_max_le : ∀ (l : List Int) (a x : Int), x ∈ l → x ≤ l.foldl max a
  | x' :: rest, a, x, h => by
    rcases List.mem_cons.mp h with h1 | h2
    · subst h1
      exact le_trans (le_max_right a x) (foldl_max_init_le rest (max a x))
    · exact foldl_max_le rest (max a x') x h2

theorem foldl_max_mem : ∀ (l : List Int) (a : Int),
    l.foldl max a = a ∨ l.foldl max a ∈ l
  | [], _ => .inl rfl
  | x :: rest, a => by
    rcases foldl_max_mem rest (max a x) with h | h
    · rcases max_choice a x with hm | hm
      · exact .inl (by rw [List.foldl_cons, h, hm])
      · exact .inr (by rw [List.foldl_cons, h, hm]; exact List.mem_cons_self x rest)
    · exact .inr (List.mem_cons_of_mem x h)

theorem statLoop_char (env : Env) :
    ∀ (p : IndexFiles) (info : IndexFilesInfo),
      statLoop env info p =
        match firstStatErr env p with
        | some e => .error e
        | none =>
          .ok { MaxSize :=
                  ((remainingStats env p).map (fun x => x.1)).foldl max info.MaxSize
                Size := info.Size + ((remainingStats env p).map (fun x => x.1)).sum
                ModTime :=
                  ((remainingStats env p).map (fun x => x.2)).foldl max info.ModTime }
  | [], info => by simp [statLoop, firstStatErr, remainingStats]
  | f :: rest, info => by
    cases h : env.stat f.path with
    | notExist =>
      rw [statLoop, h]
      rw [statLoop_char env rest info]
      simp [firstStatErr, remainingStats, h]
    | failed e =>
      rw [statLoop, h]
      simp [firstStatErr, h]
    | found size modTime =>
      have hmax : (if size > info.MaxSize then size else info.MaxSize)
          = max info.MaxSize size := by
        by_cases hc : info.MaxSize < size
        · rw [if_pos hc, max_eq_right hc.le]
        · rw [if_neg hc, max_eq_left (by omega)]
      have hmod : (if modTime > info.ModTime then modTime else info.ModTime)
          = max info.ModTime modTime := by
        by_cases hc : info.ModTime < modTime
        · rw [if_pos hc, max_eq_right hc.le]
        · rw [if_neg hc, max_eq_left (by omega)]
      have hfse : firstStatErr env (f :: rest) = firstStatErr env rest := by
        simp [firstStatErr, List.findSome?_cons, h]
      have hrs : remainingStats env (f :: rest)
          = (size, modTime) :: remainingStats env rest := by
        simp [remainingStats, List.filterMap_cons, h]
      simp only [statLoop, h]
      rw [statLoop_char env rest
        { MaxSize := if size > info.MaxSize then size else info.MaxSize
          ModTime := if modTime > info.ModTime then modTime else info.ModTime
          Size := info.Size + size }, hfse, hrs]
      cases hrest : firstStatErr env rest with
      | some e => rfl
      | none =>
        simp only [List.map_cons, List.foldl_cons, List.sum_cons, hmax, hmod]
        rw [add_assoc]

/-- C6: `Stat` skips files whose stat reports not-found and returns,
without error, the sum of sizes, the (zero-floored) maximum size and the
latest modification time over exactly the remaining files; any other stat
failure is returned as the error. -/
theorem claim_C6 (env : Env) (p : IndexFiles) :
    (∀ e, firstStatErr env p = some e → IndexFiles.Stat env p = .error e) ∧
    (firstStatErr env p = none →
      ∃ info, IndexFiles.Stat env p = .ok info ∧
        info.Size = ((remainingStats env p).map (fun x => x.1)).sum ∧
        (∀ x ∈ (remainingStats env p).map (fun x => x.1), x ≤ info.MaxSize) ∧
        (info.MaxSize = 0 ∨ info.MaxSize ∈ (remainingStats env p).map (fun x => x.1)) ∧
        (∀ x ∈ (remainingStats env p).map (fun x => x.2), x ≤ info.ModTime) ∧
        (info.ModTime = 0 ∨ info.ModTime ∈ (remainingStats env p).map (fun x => x.2))) := by
  have hchar := statLoop_char env p { MaxSize := 0, Size := 0, ModTime := 0 }
  constructor
  · intro e he
    rw [IndexFiles.Stat, hchar, he]
  · intro hnone
    rw [IndexFiles.Stat, hchar, hnone]
    refine ⟨_, rfl, by simp, ?_, ?_, ?_, ?_⟩
    · intro x hx; exact foldl_max_le _ 0 x hx
    · exact (foldl_max_mem _ 0).imp id id
    · intro x hx; exact foldl_max_le _ 0 x hx
    · exact (foldl_max_mem _ 0).imp id id

/-- Witness for C6 at a concrete environment and collection. -/
theorem claim_C6_witness :
    ∃ info, IndexFiles.Stat envW [fileW] = .ok info ∧
      info.Size = ((remainingStats envW [fileW]).map (fun x => x.1)).sum ∧
      (∀ x ∈ (remainingStats envW [fileW]).map (fun x => x.1), x ≤ info.MaxSize) ∧
      (info.MaxSize = 0 ∨
        info.MaxSize ∈ (remainingStats envW [fileW]).map (fun x => x.1)) ∧
      (∀ x ∈ (remainingStats envW [fileW]).map (fun x => x.2), x ≤ info.ModTime) ∧
      (info.ModTime = 0 ∨
        info.ModTime ∈ (remainingStats envW [fileW]).map (fun x => x.2)) :=
  (claim_C6 envW [fileW]).2 (by decide)

/- ================================================================== -/
/- Identifier resolution lemmas                                        -/
/- ================================================================== -/

theorem sorted_lt_insertionSort (l : List Nat) (hnd : l.Nodup) :
    List.Sorted (· < ·) (List.insertionSort (· ≤ ·) l) := by
  have hs : List.Sorted (· ≤ ·) (List.insertionSort (· ≤ ·) l) :=
    List.sorted_insertionSort _ _
  have hnd' : (List.insertionSort (· ≤ ·) l).Nodup :=
    (List.perm_insertionSort (· ≤ ·) l).symm.nodup hnd
  exact (hs.and hnd').imp (fun h => lt_of_le_of_ne h.1 h.2)

theorem lookupSeriesIDs_eq_map (off : Bytes → Nat) (ask : Bytes → Bytes → Bytes) :
    ∀ (l : List SeriesElem) (ids : List Nat),
      lookupSeriesIDs off ask l = some ids →
      ids = l.map (fun e => off (ask e.name e.tags))
  | [], ids => by
    simp only [lookupSeriesIDs, Option.some.injEq, List.map_nil]
    intro h; exact h.symm
  | se :: rest, ids => by
    simp only [lookupSeriesIDs]
    by_cases hz : off (ask se.name se.tags) = 0
    · simp [hz]
    · cases hr : lookupSeriesIDs off ask rest with
      | none => simp [hz, hr]
      | some ids' =>
        simp only [hz, if_false, hr, Option.some.injEq, List.map_cons]
        intro h
        rw [← h, ← lookupSeriesIDs_eq_map off ask rest ids' hr]
  termination_by l => l.length

theorem lookupSeriesIDs_none_iff (off : Bytes → Nat) (ask : Bytes → Bytes → Bytes) :
    ∀ (l : List SeriesElem),
      lookupSeriesIDs off ask l = none ↔ ∃ e ∈ l, off (ask e.name e.tags) = 0
  | [] => by simp [lookupSeriesIDs]
  | se :: rest => by
    simp only [lookupSeriesIDs]
    by_cases hz : off (ask se.name se.tags) = 0
    · simp [hz]
    · cases hr : lookupSeriesIDs off ask rest with
      | none =>
        have := (lookupSeriesIDs_none_iff off ask rest).mp hr
        simp only [hz, if_false, hr]
        constructor
        · intro _
          obtain ⟨e, he, hze⟩ := this
          exact ⟨e, List.mem_cons_of_mem se he, hze⟩
        · intro _; trivial
      | some ids =>
        have hno : ¬ ∃ e ∈ rest, off (ask e.name e.tags) = 0 := by
          rw [← lookupSeriesIDs_none_iff off ask rest]
          simp [hr]
        simp only [hz, if_false, hr]
        constructor
        · intro h; cases h
        · rintro ⟨e, he, hze⟩
          rcases List.mem_cons.mp he with h1 | h2
          · subst h1; exact absurd hze hz
          · exact absurd ⟨e, h2, hze⟩ hno
  termination_by l => l.length

theorem resolveSortedIDs_some (off : Bytes → Nat) (ask : Bytes → Bytes → Bytes)
    (l : List SeriesElem) (ids : List Nat)
    (h : resolveSortedIDs off ask l = some ids) :
    ids = List.insertionSort (· ≤ ·) (l.map (fun e => off (ask e.name e.tags))) := by
  rw [resolveSortedIDs] at h
  cases hl : lookupSeriesIDs off ask l with
  | none => rw [hl] at h; cases h
  | some raw =>
    rw [hl] at h
    simp only [Option.map_some'] at h
    rw [← lookupSeriesIDs_eq_map off ask l raw hl]
    exact (Option.some.injEq _ _ ▸ h).symm

theorem resolveSortedIDs_none_iff (off : Bytes → Nat) (ask : Bytes → Bytes → Bytes)
    (l : List SeriesElem) :
    resolveSortedIDs off ask l = none ↔ ∃ e ∈ l, off (ask e.name e.tags) = 0 := by
  rw [resolveSortedIDs, Option.map_eq_none', lookupSeriesIDs_none_iff]

theorem resolveSortedIDs_sorted_lt (off : Bytes → Nat) (ask : Bytes → Bytes → Bytes)
    (l : List SeriesElem) (ids : List Nat)
    (h : resolveSortedIDs off ask l = some ids)
    (hnd : (l.map (fun e => off (ask e.name e.tags))).Nodup) :
    List.Sorted (· < ·) ids := by
  rw [resolveSortedIDs_some off ask l ids h]
  exact sorted_lt_insertionSort _ hnd

/- ================================================================== -/
/- Pass 2 loop characterizations                                       -/
/- ================================================================== -/

theorem encodeTagValuesLoop_ok (env : Env) (p : IndexFiles) (tm : TagEncModel)
    (ents : List SeriesElem) (name key : Bytes) :
    ∀ (vs : List TagValueElem) (acc calls' : List TagCall),
      encodeTagValuesLoop env p tm ents name key acc vs = .ok calls' →
      ∃ built, valueCallsOf env p ents name key vs = some built ∧
        calls' = acc ++ built
  | [], acc, calls' => by
    simp only [encodeTagValuesLoop, PResult.ok.injEq, valueCallsOf]
    intro h; exact ⟨[], rfl, by simp [h]⟩
  | ve :: rest, acc, calls' => by
    intro h
    simp only [encodeTagValuesLoop] at h
    simp only [valueCallsOf]
    cases hres : resolveSortedIDs (env.sEnc.offset ents) env.appendSeriesKey
        (IndexFiles.TagValueSeriesIterator env p name key ve.value) with
    | none => simp only [hres] at h; cases h
    | some ids =>
      simp only [hres] at h
      cases henc : tm.encodeErr acc (TagCall.value ve.value ve.deleted ids) with
      | some e => simp only [henc] at h; cases h
      | none =>
        simp only [henc] at h
        obtain ⟨built, hb, hc⟩ := encodeTagValuesLoop_ok env p tm ents name key
          rest (acc ++ [TagCall.value ve.value ve.deleted ids]) calls' h
        refine ⟨TagCall.value ve.value ve.deleted ids :: built, ?_, ?_⟩
        · rw [hb]; rfl
        · rw [hc]; simp
  termination_by vs => vs.length

theorem encodeTagKeysLoop_ok (env : Env) (p : IndexFiles) (tm : TagEncModel)
    (ents : List SeriesElem) (name : Bytes) :
    ∀ (ks : List TagKeyElem) (acc calls' : List TagCall),
      encodeTagKeysLoop env p tm ents name acc ks = .ok calls' →
      ∃ built, keyCallsOf env p ents name ks = some built ∧
        calls' = acc ++ built
  | [], acc, calls' => by
    simp only [encodeTagKeysLoop, PResult.ok.injEq, keyCallsOf]
    intro h; exact ⟨[], rfl, by simp [h]⟩
  | ke :: rest, acc, calls' => by
    intro h
    simp only [encodeTagKeysLoop] at h
    simp only [keyCallsOf]
    cases henc : tm.encodeErr acc (TagCall.key ke.key ke.deleted) with
    | some e => simp only [henc] at h; cases h
    | none =>
      simp only [henc] at h
      cases hv : encodeTagValuesLoop env p tm ents name ke.key
          (acc ++ [TagCall.key ke.key ke.deleted]) ke.values with
      | err e a => simp only [hv] at h; cases h
      | panicked a => simp only [hv] at h; cases h
      | ok calls1 =>
        simp only [hv] at h
        obtain ⟨vb, hvb, hv1⟩ := encodeTagValuesLoop_ok env p tm ents name ke.key
          ke.values _ calls1 hv
        obtain ⟨rb, hrb, hr⟩ := encodeTagKeysLoop_ok env p tm ents name
          rest calls1 calls' h
        refine ⟨TagCall.key ke.key ke.deleted :: (vb ++ rb), ?_, ?_⟩
        · rw [hvb, hrb]
        · rw [hr, hv1]; simp
  termination_by ks => ks.length

theorem writeTagsetTo_ok (env : Env) (p : IndexFiles) (name : Bytes)
    (ctx ctx' : WCtx) (h : IndexFiles.writeTagsetTo env p name ctx = .ok ctx') :
    ∃ calls, tagCallsOf env p ctx.encEntries name = some calls ∧
      (env.tagEnc name).closeErr calls = none ∧
      ctx' = { ctx with
        stream := ctx.stream ++ [Chunk.tagset name calls],
        n := ctx.n + ((env.tagEnc name).output calls).length,
        tagSets := (name, (ctx.n, ((env.tagEnc name).output calls).length))
          :: ctx.tagSets } := by
  simp only [IndexFiles.writeTagsetTo, IndexFiles.TagKeyIterator] at h
  cases hk : encodeTagKeysLoop env p (env.tagEnc name) ctx.encEntries name []
      (env.mergeTagKeyIterators (collectItrs (fun f => f.tagKeyItr name) [] p)) with
  | panicked calls => simp only [hk] at h; cases h
  | err e calls => simp only [hk] at h; cases h
  | ok calls =>
    simp only [hk] at h
    obtain ⟨built, hb, hc⟩ := encodeTagKeysLoop_ok env p (env.tagEnc name)
      ctx.encEntries name _ [] calls hk
    have hcalls : calls = built := by simpa using hc
    subst hcalls
    cases hcl : (env.tagEnc name).closeErr calls with
    | some e => simp only [hcl] at h; cases h
    | none =>
      simp only [hcl, PResult.ok.injEq] at h
      refine ⟨calls, ?_, hcl, ?_⟩
      · rw [tagCallsOf, IndexFiles.TagKeyIterator]
        exact hb
      · rw [← h]
        simp [Nat.add_sub_cancel_left]

/- ================================================================== -/
/- Pass characterizations                                              -/
/- ================================================================== -/

theorem writeSeriesBlockTo_ok (env : Env) (p : IndexFiles) (ctx ctx' : WCtx)
    (h : IndexFiles.writeSeriesBlockTo env p ctx = .ok ctx') :
    encodeSeriesLoop env.sEnc [] (IndexFiles.SeriesIterator env p) = none ∧
    env.sEnc.closeErr (IndexFiles.SeriesIterator env p) = none ∧
    ctx' = { ctx with
      stream := ctx.stream ++ [Chunk.series (IndexFiles.SeriesIterator env p)],
      n := ctx.n + (env.sEnc.output (IndexFiles.SeriesIterator env p)).length,
      encEntries := IndexFiles.SeriesIterator env p } := by
  simp only [IndexFiles.writeSeriesBlockTo] at h
  cases hl : encodeSeriesLoop env.sEnc [] (IndexFiles.SeriesIterator env p) with
  | some pr =>
    obtain ⟨e, done⟩ := pr
    simp only [hl] at h
    cases h
  | none =>
    simp only [hl] at h
    cases hc : env.sEnc.closeErr (IndexFiles.SeriesIterator env p) with
    | some e => simp only [hc] at h; cases h
    | none =>
      simp only [hc, PResult.ok.injEq] at h
      exact ⟨rfl, rfl, h.symm⟩

theorem writeTagsetsLoop_ok (env : Env) (p : IndexFiles) :
    ∀ (ms : List MeasurementElem) (ctx ctx' : WCtx),
      writeTagsetsLoop env p ctx ms = .ok ctx' →
      (∀ m ∈ ms, ∃ cs, tagCallsOf env p ctx.encEntries m.name = some cs) ∧
      ctx'.encEntries = ctx.encEntries ∧
      ctx'.stream = ctx.stream
        ++ ms.map (fun m => tagsetChunkOf env p ctx.encEntries m.name) ∧
      ctx'.n = ctx.n
        + (ms.map (fun m => tagsetSize env p ctx.encEntries m.name)).sum ∧
      ctx'.tagSets = tagSetEntriesOf env p ctx.encEntries ctx.n ms ++ ctx.tagSets
  | [], ctx, ctx' => by
    simp only [writeTagsetsLoop, PResult.ok.injEq]
    intro h
    subst h
    simp [tagSetEntriesOf]
  | m :: rest, ctx, ctx' => by
    intro h
    simp only [writeTagsetsLoop] at h
    cases hw : IndexFiles.writeTagsetTo env p m.name ctx with
    | err e a => simp only [hw] at h; cases h
    | panicked a => simp only [hw] at h; cases h
    | ok ctx1 =>
      simp only [hw] at h
      obtain ⟨calls, hcalls, _, hctx1⟩ := writeTagsetTo_ok env p m.name ctx ctx1 hw
      subst hctx1
      obtain ⟨hall, henc, hstream, hn, hts⟩ := writeTagsetsLoop_ok env p rest _ ctx' h
      simp only at hall henc hstream hn hts
      have hsz : tagsetSize env p ctx.encEntries m.name
          = ((env.tagEnc m.name).output calls).length := by
        rw [tagsetSize, hcalls]
      have hch : tagsetChunkOf env p ctx.encEntries m.name
          = Chunk.tagset m.name calls := by
        rw [tagsetChunkOf, hcalls]; rfl
      refine ⟨?_, henc, ?_, ?_, ?_⟩
      · intro m' hm'
        rcases List.mem_cons.mp hm' with h1 | h2
        · subst h1; exact ⟨calls, hcalls⟩
        · exact hall m' h2
      · rw [hstream, List.map_cons, hch]
        simp
      · rw [hn, List.map_cons, List.sum_cons, hsz]
        omega
      · rw [hts, tagSetEntriesOf, hsz]
        simp
  termination_by ms => ms.length

theorem buildMeasAdds_some (env : Env) (p : IndexFiles) (ents : List SeriesElem)
    (tagSets : List (Bytes × (Nat × Nat))) :
    ∀ (ms : List MeasurementElem) (adds : List MeasAdd),
      buildMeasAdds env p ents tagSets ms = some adds →
      adds = ms.map (fun m =>
        { name := m.name, deleted := m.deleted,
          offset := (lookupTagSet tagSets m.name).1,
          size := (lookupTagSet tagSets m.name).2,
          ids := (resolveSortedIDs (env.sEnc.offset ents) env.appendSeriesKey
            (IndexFiles.MeasurementSeriesIterator env p m.name)).getD [] })
  | [], adds => by
    simp only [buildMeasAdds, Option.some.injEq, List.map_nil]
    intro h; exact h.symm
  | m :: rest, adds => by
    intro h
    simp only [buildMeasAdds] at h
    cases hres : resolveSortedIDs (env.sEnc.offset ents) env.appendSeriesKey
        (IndexFiles.MeasurementSeriesIterator env p m.name) with
    | none => simp only [hres] at h; cases h
    | some ids =>
      simp only [hres] at h
      cases hrest : buildMeasAdds env p ents tagSets rest with
      | none => simp only [hrest] at h; cases h
      | some adds' =>
        simp only [hrest, Option.some.injEq] at h
        rw [← h, buildMeasAdds_some env p ents tagSets rest adds' hrest,
          List.map_cons]
        simp [hres]
  termination_by ms => ms.length

theorem writeMeasurementBlockTo_ok (env : Env) (p : IndexFiles) (ctx ctx' : WCtx)
    (h : IndexFiles.writeMeasurementBlockTo env p ctx = .ok ctx') :
    ∃ adds, buildMeasAdds env p ctx.encEntries ctx.tagSets
        (IndexFiles.MeasurementIterator env p) = some adds ∧
      env.mw.err adds = none ∧
      ctx' = { ctx with stream := ctx.stream ++ [Chunk.meas adds],
                        n := ctx.n + (env.mw.output adds).length } := by
  simp only [IndexFiles.writeMeasurementBlockTo] at h
  cases hb : buildMeasAdds env p ctx.encEntries ctx.tagSets
      (IndexFiles.MeasurementIterator env p) with
  | none => simp only [hb] at h; cases h
  | some adds =>
    simp only [hb] at h
    cases he : env.mw.err adds with
    | some e => simp only [he] at h; cases h
    | none =>
      simp only [he, PResult.ok.injEq] at h
      exact ⟨adds, rfl, he, h.symm⟩

/- ================================================================== -/
/- WriteTo success characterization                                    -/
/- ================================================================== -/

theorem WriteTo_ok_char (env : Env) (p : IndexFiles) (n : Nat) (s : List Chunk)
    (h : IndexFiles.WriteTo env p = .ok n s) :
    env.magicErr = none ∧ env.flushErr = none ∧
    (∀ m ∈ mergedMeasurements env p,
      ∃ cs, tagCallsOf env p (mergedSeries env p) m.name = some cs) ∧
    ∃ adds, measAddsOf env p = some adds ∧ env.mw.err adds = none ∧
      s = expectedStream env p adds ∧ n = expectedN env p adds := by
  simp only [IndexFiles.WriteTo] at h
  cases hmg : env.magicErr with
  | some e => simp only [hmg] at h; cases h
  | none =>
    simp only [hmg, List.nil_append, Nat.zero_add] at h
    cases hsb : IndexFiles.writeSeriesBlockTo env p
        { stream := [Chunk.magic], n := env.fileSignature.length,
          encEntries := [], tagSets := [] } with
    | err e a => simp only [hsb] at h; cases h
    | panicked a => simp only [hsb] at h; cases h
    | ok ctx2 =>
      simp only [hsb] at h
      obtain ⟨hsl, hscl, hctx2⟩ := writeSeriesBlockTo_ok env p _ ctx2 hsb
      have h2n : ctx2.n = env.fileSignature.length
          + (env.sEnc.output (IndexFiles.SeriesIterator env p)).length := by
        rw [hctx2]
      have h2enc : ctx2.encEntries = IndexFiles.SeriesIterator env p := by
        rw [hctx2]
      have h2stream : ctx2.stream
          = [Chunk.magic, Chunk.series (IndexFiles.SeriesIterator env p)] := by
        rw [hctx2]; rfl
      have h2ts : ctx2.tagSets = [] := by rw [hctx2]
      cases hts : IndexFiles.writeTagsetsTo env p ctx2 with
      | err e a => simp only [hts] at h; cases h
      | panicked a => simp only [hts] at h; cases h
      | ok ctx3 =>
        simp only [hts] at h
        rw [IndexFiles.writeTagsetsTo] at hts
        obtain ⟨hall, henc3, hstream3, hn3, hts3⟩ :=
          writeTagsetsLoop_ok env p _ ctx2 ctx3 hts
        rw [h2enc] at hall henc3 hstream3 hn3 hts3
        rw [h2n] at hn3 hts3
        rw [h2stream] at hstream3
        rw [h2ts, List.append_nil] at hts3
        rw [h2n] at h
        cases hmb : IndexFiles.writeMeasurementBlockTo env p ctx3 with
        | err e a => simp only [hmb] at h; cases h
        | panicked a => simp only [hmb] at h; cases h
        | ok ctx4 =>
          simp only [hmb] at h
          obtain ⟨adds, hadds, hmwerr, hctx4⟩ :=
            writeMeasurementBlockTo_ok env p ctx3 ctx4 hmb
          rw [henc3, hts3] at hadds
          have h4n : ctx4.n = ctx3.n + (env.mw.output adds).length := by
            rw [hctx4]
          have h4stream : ctx4.stream = ctx3.stream ++ [Chunk.meas adds] := by
            rw [hctx4]
          have hmaddsOf : measAddsOf env p = some adds := by
            rw [measAddsOf, mergedSeries, mergedMeasurements, passTwoTagSets,
              mergedSeries, mergedMeasurements, seriesBlockLen, mergedSeries]
            exact hadds
          rw [h4n, hn3] at h
          rw [h4stream, hstream3] at h
          simp only [Nat.add_sub_cancel_left] at h
          split at h
          · cases h
          · split at h
            · cases h
            next hfl =>
              simp only [WriteResult.ok.injEq] at h
              refine ⟨rfl, hfl, hall, adds, hmaddsOf, hmwerr, ?_, ?_⟩
              · rw [← h.2]
                simp [expectedStream, trailerOf, seriesBlockLen, tagBlocksLen,
                  mergedSeries, mergedMeasurements, List.append_assoc]
              · rw [← h.1]
                simp [expectedN, trailerOf, seriesBlockLen, tagBlocksLen,
                  mergedSeries, mergedMeasurements]

/- ================================================================== -/
/- Stream extension lemmas (all result kinds)                          -/
/- ================================================================== -/

theorem writeSeriesBlockTo_ext (env : Env) (p : IndexFiles) (ctx : WCtx) :
    ∃ added, ((IndexFiles.writeSeriesBlockTo env p ctx).payload).stream
        = ctx.stream ++ added ∧
      ∀ c ∈ added, c.isTrailerChunk = false := by
  simp only [IndexFiles.writeSeriesBlockTo]
  cases hl : encodeSeriesLoop env.sEnc [] (IndexFiles.SeriesIterator env p) with
  | some pr =>
    obtain ⟨e, done⟩ := pr
    exact ⟨[Chunk.series done], rfl, by simp [Chunk.isTrailerChunk]⟩
  | none =>
    cases hc : env.sEnc.closeErr (IndexFiles.SeriesIterator env p) with
    | some e =>
      exact ⟨[Chunk.series (IndexFiles.SeriesIterator env p)], rfl,
        by simp [Chunk.isTrailerChunk]⟩
    | none =>
      exact ⟨[Chunk.series (IndexFiles.SeriesIterator env p)], rfl,
        by simp [Chunk.isTrailerChunk]⟩

theorem writeTagsetTo_ext (env : Env) (p : IndexFiles) (name : Bytes)
    (ctx : WCtx) :
    ∃ added, ((IndexFiles.writeTagsetTo env p name ctx).payload).stream
        = ctx.stream ++ added ∧
      ∀ c ∈ added, c.isTrailerChunk = false := by
  simp only [IndexFiles.writeTagsetTo, IndexFiles.TagKeyIterator]
  split
  · exact ⟨_, rfl, by simp [Chunk.isTrailerChunk]⟩
  · exact ⟨_, rfl, by simp [Chunk.isTrailerChunk]⟩
  · split
    · exact ⟨_, rfl, by simp [Chunk.isTrailerChunk]⟩
    · exact ⟨_, rfl, by simp [Chunk.isTrailerChunk]⟩

theorem writeTagsetsLoop_ext (env : Env) (p : IndexFiles) :
    ∀ (ms : List MeasurementElem) (ctx : WCtx),
      ∃ added, ((writeTagsetsLoop env p ctx ms).payload).stream
          = ctx.stream ++ added ∧
        ∀ c ∈ added, c.isTrailerChunk = false
  | [], ctx => ⟨[], by simp [writeTagsetsLoop, PResult.payload], by simp⟩
  | m :: rest, ctx => by
    simp only [writeTagsetsLoop]
    cases hw : IndexFiles.writeTagsetTo env p m.name ctx with
    | err e a =>
      obtain ⟨a1, ha1, hg1⟩ := writeTagsetTo_ext env p m.name ctx
      rw [hw] at ha1
      exact ⟨a1, ha1, hg1⟩
    | panicked a =>
      obtain ⟨a1, ha1, hg1⟩ := writeTagsetTo_ext env p m.name ctx
      rw [hw] at ha1
      exact ⟨a1, ha1, hg1⟩
    | ok ctx1 =>
      obtain ⟨a1, ha1, hg1⟩ := writeTagsetTo_ext env p m.name ctx
      rw [hw] at ha1
      simp only [PResult.payload] at ha1
      obtain ⟨a2, ha2, hg2⟩ := writeTagsetsLoop_ext env p rest ctx1
      refine ⟨a1 ++ a2, ?_, ?_⟩
      · rw [ha2, ha1, List.append_assoc]
      · intro c hc
        rcases List.mem_append.mp hc with h1 | h2
        · exact hg1 c h1
        · exact hg2 c h2
  termination_by ms => ms.length

theorem writeMeasurementBlockTo_ext (env : Env) (p : IndexFiles) (ctx : WCtx) :
    ∃ added, ((IndexFiles.writeMeasurementBlockTo env p ctx).payload).stream
        = ctx.stream ++ added ∧
      ∀ c ∈ added, c.isTrailerChunk = false := by
  simp only [IndexFiles.writeMeasurementBlockTo]
  split
  · exact ⟨[], by simp [PResult.payload], by simp⟩
  · split
    · exact ⟨_, rfl, by simp [Chunk.isTrailerChunk]⟩
    · exact ⟨_, rfl, by simp [Chunk.isTrailerChunk]⟩

end TSI1

namespace TSI1
theorem WriteTo_err_char (env : Env) (p : IndexFiles) (e : Err) (n : Nat)
    (s : List Chunk) (h : IndexFiles.WriteTo env p = .err e n s) :
    (∀ c ∈ s, c.isTrailerChunk = false) ∨
    (∃ adds, measAddsOf env p = some adds ∧ n = expectedN env p adds ∧
      s = expectedStream env p adds ∧
      (env.trailer.err (trailerOf env p adds) = some e ∨
        (env.trailer.err (trailerOf env p adds) = none ∧
          env.flushErr = some e))) := by
  simp only [IndexFiles.WriteTo] at h
  cases hmg : env.magicErr with
  | some e1 =>
    simp only [hmg, WriteResult.err.injEq] at h
    left
    rw [← h.2.2]
    intro c hc
    cases hc
  | none =>
    simp only [hmg, List.nil_append, Nat.zero_add] at h
    cases hsb : IndexFiles.writeSeriesBlockTo env p
        { stream := [Chunk.magic], n := env.fileSignature.length,
          encEntries := [], tagSets := [] } with
    | panicked a => simp only [hsb] at h; cases h
    | err e1 a =>
      simp only [hsb, WriteResult.err.injEq] at h
      left
      obtain ⟨added, hadd, hg⟩ := writeSeriesBlockTo_ext env p
        { stream := [Chunk.magic], n := env.fileSignature.length,
          encEntries := [], tagSets := [] }
      rw [hsb] at hadd
      simp only [PResult.payload] at hadd
      rw [← h.2.2, hadd]
      intro c hc
      rcases List.mem_append.mp hc with h1 | h2
      · rcases List.mem_singleton.mp (by simpa using h1) with rfl
        rfl
      · exact hg c h2
    | ok ctx2 =>
      simp only [hsb] at h
      obtain ⟨hsl, hscl, hctx2⟩ := writeSeriesBlockTo_ok env p _ ctx2 hsb
      have h2n : ctx2.n = env.fileSignature.length
          + (env.sEnc.output (IndexFiles.SeriesIterator env p)).length := by
        rw [hctx2]
      have h2enc : ctx2.encEntries = IndexFiles.SeriesIterator env p := by
        rw [hctx2]
      have h2stream : ctx2.stream
          = [Chunk.magic, Chunk.series (IndexFiles.SeriesIterator env p)] := by
        rw [hctx2]; rfl
      have h2ts : ctx2.tagSets = [] := by rw [hctx2]
      cases hts : IndexFiles.writeTagsetsTo env p ctx2 with
      | panicked a => simp only [hts] at h; cases h
      | err e1 a =>
        simp only [hts, WriteResult.err.injEq] at h
        left
        obtain ⟨added, hadd, hg⟩ := writeTagsetsLoop_ext env p
          (IndexFiles.MeasurementIterator env p) ctx2
        rw [IndexFiles.writeTagsetsTo] at hts
        rw [hts] at hadd
        simp only [PResult.payload] at hadd
        rw [← h.2.2, hadd, h2stream]
        intro c hc
        rcases List.mem_append.mp hc with h1 | h2
        · rcases List.mem_cons.mp h1 with rfl | h1'
          · rfl
          · rcases List.mem_cons.mp h1' with rfl | h1''
            · rfl
            · cases h1''
        · exact hg c h2
      | ok ctx3 =>
        simp only [hts] at h
        rw [IndexFiles.writeTagsetsTo] at hts
        obtain ⟨hall, henc3, hstream3, hn3, hts3⟩ :=
          writeTagsetsLoop_ok env p _ ctx2 ctx3 hts
        rw [h2enc] at hall henc3 hstream3 hn3 hts3
        rw [h2n] at hn3 hts3
        rw [h2stream] at hstream3
        rw [h2ts, List.append_nil] at hts3
        rw [h2n] at h
        cases hmb : IndexFiles.writeMeasurementBlockTo env p ctx3 with
        | panicked a => simp only [hmb] at h; cases h
        | err e1 a =>
          simp only [hmb, WriteResult.err.injEq] at h
          left
          obtain ⟨added, hadd, hg⟩ := writeMeasurementBlockTo_ext env p ctx3
          rw [hmb] at hadd
          simp only [PResult.payload] at hadd
          rw [← h.2.2, hadd, hstream3]
          intro c hc
          rcases List.mem_append.mp hc with h1 | h2
          · rcases List.mem_append.mp h1 with h1a | h1b
            · rcases List.mem_cons.mp h1a with rfl | h1'
              · rfl
              · rcases List.mem_cons.mp h1' with rfl | h1''
                · rfl
                · cases h1''
            · obtain ⟨m, hm, hmc⟩ := List.mem_map.mp h1b
              rw [← hmc, tagsetChunkOf]
              rfl
          · exact hg c h2
        | ok ctx4 =>
          simp only [hmb] at h
          obtain ⟨adds, hadds, hmwerr, hctx4⟩ :=
            writeMeasurementBlockTo_ok env p ctx3 ctx4 hmb
          rw [henc3, hts3] at hadds
          have h4n : ctx4.n = ctx3.n + (env.mw.output adds).length := by
            rw [hctx4]
          have h4stream : ctx4.stream = ctx3.stream ++ [Chunk.meas adds] := by
            rw [hctx4]
          have hmaddsOf : measAddsOf env p = some adds := by
            rw [measAddsOf, mergedSeries, mergedMeasurements, passTwoTagSets,
              mergedSeries, mergedMeasurements, seriesBlockLen, mergedSeries]
            exact hadds
          rw [h4n, hn3] at h
          rw [h4stream, hstream3] at h
          simp only [Nat.add_sub_cancel_left] at h
          split at h
          next e1 htr =>
            simp only [WriteResult.err.injEq] at h
            right
            refine ⟨adds, hmaddsOf, ?_, ?_, ?_⟩
            · rw [← h.2.1]
              simp [expectedN, trailerOf, seriesBlockLen, tagBlocksLen,
                mergedSeries, mergedMeasurements]
            · rw [← h.2.2]
              simp [expectedStream, trailerOf, seriesBlockLen, tagBlocksLen,
                mergedSeries, mergedMeasurements, List.append_assoc]
            · left
              rw [← h.1, ← htr]
              rfl
          next htr =>
            split at h
            next e1 hfl =>
              simp only [WriteResult.err.injEq] at h
              right
              refine ⟨adds, hmaddsOf, ?_, ?_, ?_⟩
              · rw [← h.2.1]
                simp [expectedN, trailerOf, seriesBlockLen, tagBlocksLen,
                  mergedSeries, mergedMeasurements]
              · rw [← h.2.2]
                simp [expectedStream, trailerOf, seriesBlockLen, tagBlocksLen,
                  mergedSeries, mergedMeasurements, List.append_assoc]
              · right
                constructor
                · rw [← htr]
                  rfl
                · rw [← h.1, hfl]
            next => cases h
end TSI1

namespace TSI1

/-- C2: a successful `WriteTo` emits to the sink, in this exact order and
with nothing interleaved: the magic signature, the series block, one
tagset block per merged measurement in merged-measurement order, the
measurement block, and the trailer last. -/
theorem claim_C2 (env : Env) (p : IndexFiles) (n : Nat) (s : List Chunk)
    (h : IndexFiles.WriteTo env p = .ok n s) :
    ∃ (tcs : List (Bytes × List TagCall)) (adds : List MeasAdd)
        (t : IndexFileTrailer),
      s = Chunk.magic :: Chunk.series (mergedSeries env p)
          :: tcs.map (fun x => Chunk.tagset x.1 x.2)
          ++ [Chunk.meas adds, Chunk.trailer t] ∧
      tcs.map (fun x => x.1)
        = (mergedMeasurements env p).map (fun m => m.name) := by
  obtain ⟨-, -, -, adds, -, -, hs, -⟩ := WriteTo_ok_char env p n s h
  refine ⟨(mergedMeasurements env p).map (fun m =>
      (m.name, (tagCallsOf env p (mergedSeries env p) m.name).getD [])),
    adds, trailerOf env p adds, ?_, ?_⟩
  · rw [hs, expectedStream]
    simp only [List.map_map]
    rfl
  · simp

/-- Witness for C2 at a concrete environment and collection. -/
theorem claim_C2_witness :
    ∃ (tcs : List (Bytes × List TagCall)) (adds : List MeasAdd)
        (t : IndexFileTrailer),
      streamW = Chunk.magic :: Chunk.series (mergedSeries envW [fileW])
          :: tcs.map (fun x => Chunk.tagset x.1 x.2)
          ++ [Chunk.meas adds, Chunk.trailer t] ∧
      tcs.map (fun x => x.1)
        = (mergedMeasurements envW [fileW]).map (fun m => m.name) :=
  claim_C2 envW [fileW] 11 streamW (by decide)

theorem tagChunks_flat_len (env : Env) (p : IndexFiles)
    (hall : ∀ m ∈ mergedMeasurements env p,
      ∃ cs, tagCallsOf env p (mergedSeries env p) m.name = some cs) :
    (((mergedMeasurements env p).map
        (fun m => chunkBytes env
          (tagsetChunkOf env p (mergedSeries env p) m.name))).flatten).length
      = tagBlocksLen env p := by
  rw [List.length_flatten, List.map_map, tagBlocksLen]
  congr 1
  apply List.map_congr_left
  intro m hm
  obtain ⟨cs, hcs⟩ := hall m hm
  simp [Function.comp, tagsetChunkOf, chunkBytes, hcs, tagsetSize]

/-- C3: on a successful `WriteTo` the trailer's series-block pair is
(magic length, series-encoder byte count), its measurement-block pair
delimits the measurement block, and slicing the flat output at either
pair recovers exactly the bytes that pass wrote. -/
theorem claim_C3 (env : Env) (p : IndexFiles) (n : Nat) (s : List Chunk)
    (h : IndexFiles.WriteTo env p = .ok n s) :
    ∃ adds t, measAddsOf env p = some adds ∧ t = trailerOf env p adds ∧
      Chunk.trailer t ∈ s ∧
      t.seriesOffset = env.fileSignature.length ∧
      t.seriesSize = seriesBlockLen env p ∧
      t.measOffset = env.fileSignature.length + seriesBlockLen env p
        + tagBlocksLen env p ∧
      t.measSize = (env.mw.output adds).length ∧
      ((streamBytes env s).drop t.seriesOffset).take t.seriesSize
        = env.sEnc.output (mergedSeries env p) ∧
      ((streamBytes env s).drop t.measOffset).take t.measSize
        = env.mw.output adds := by
  obtain ⟨-, -, hall, adds, hmadds, -, hs, -⟩ := WriteTo_ok_char env p n s h
  have hflat : streamBytes env s
      = (env.fileSignature ++ (env.sEnc.output (mergedSeries env p)
          ++ ((mergedMeasurements env p).map
              (fun m => chunkBytes env
                (tagsetChunkOf env p (mergedSeries env p) m.name))).flatten))
        ++ (env.mw.output adds
            ++ env.trailer.output (trailerOf env p adds)) := by
    rw [hs]
    simp [streamBytes, expectedStream, chunkBytes, Function.comp,
      List.append_assoc]
    rfl
  refine ⟨adds, trailerOf env p adds, hmadds, rfl, ?_, rfl, rfl, rfl, rfl, ?_, ?_⟩
  · rw [hs, expectedStream]
    simp
  · have hflat1 : streamBytes env s
        = env.fileSignature ++ (env.sEnc.output (mergedSeries env p)
            ++ (((mergedMeasurements env p).map
                (fun m => chunkBytes env
                  (tagsetChunkOf env p (mergedSeries env p) m.name))).flatten
              ++ (env.mw.output adds
                  ++ env.trailer.output (trailerOf env p adds)))) := by
      rw [hflat]
      simp [List.append_assoc]
    rw [hflat1,
      List.drop_left' (show (env.fileSignature).length
        = (trailerOf env p adds).seriesOffset from rfl),
      List.take_left' (show (env.sEnc.output (mergedSeries env p)).length
        = (trailerOf env p adds).seriesSize from rfl)]
  · have hlen : (env.fileSignature ++ (env.sEnc.output (mergedSeries env p)
        ++ ((mergedMeasurements env p).map
            (fun m => chunkBytes env
              (tagsetChunkOf env p (mergedSeries env p) m.name))).flatten)).length
        = (trailerOf env p adds).measOffset := by
      simp only [List.length_append, tagChunks_flat_len env p hall,
        trailerOf, seriesBlockLen]
      omega
    rw [hflat, List.drop_left' hlen,
      List.take_left' (show (env.mw.output adds).length
        = (trailerOf env p adds).measSize from rfl)]

/-- Witness for C3 at a concrete environment and collection. -/
theorem claim_C3_witness :
    ∃ adds t, measAddsOf envW [fileW] = some adds ∧
      t = trailerOf envW [fileW] adds ∧
      Chunk.trailer t ∈ streamW ∧
      t.seriesOffset = (envW.fileSignature).length ∧
      t.seriesSize = seriesBlockLen envW [fileW] ∧
      t.measOffset = (envW.fileSignature).length + seriesBlockLen envW [fileW]
        + tagBlocksLen envW [fileW] ∧
      t.measSize = (envW.mw.output adds).length ∧
      ((streamBytes envW streamW).drop t.seriesOffset).take t.seriesSize
        = envW.sEnc.output (mergedSeries envW [fileW]) ∧
      ((streamBytes envW streamW).drop t.measOffset).take t.measSize
        = envW.mw.output adds :=
  claim_C3 envW [fileW] 11 streamW (by decide)

end TSI1

namespace TSI1

/-- C5: `WriteTo` returns a nil error only after the buffered sink has
been successfully flushed; a failing step's error is returned
immediately: a magic-write failure aborts before anything else runs, and
an error result contains a trailer only when the failing step was the
trailer write itself or the flush. -/
theorem claim_C5 (env : Env) (p : IndexFiles) :
    (∀ n s, IndexFiles.WriteTo env p = .ok n s → env.flushErr = none) ∧
    (∀ e, env.magicErr = some e → IndexFiles.WriteTo env p = .err e 0 []) ∧
    (∀ e n s, IndexFiles.WriteTo env p = .err e n s →
      (∀ c ∈ s, c.isTrailerChunk = false) ∨
      ∃ adds, measAddsOf env p = some adds ∧
        s = expectedStream env p adds ∧
        (env.trailer.err (trailerOf env p adds) = some e ∨
          (env.trailer.err (trailerOf env p adds) = none ∧
            env.flushErr = some e))) := by
  refine ⟨?_, ?_, ?_⟩
  · intro n s h
    exact (WriteTo_ok_char env p n s h).2.1
  · intro e hmg
    simp [IndexFiles.WriteTo, hmg]
  · intro e n s h
    rcases WriteTo_err_char env p e n s h with h1 | ⟨adds, h2, _, h4, h5⟩
    · exact .inl h1
    · exact .inr ⟨adds, h2, h4, h5⟩

/-- Witness for C5 at a concrete environment and collection. -/
theorem claim_C5_witness : envW.flushErr = none :=
  (claim_C5 envW [fileW]).1 11 streamW (by decide)

/-- C10: on success `WriteTo` returns exactly
magic + series block + tagset blocks + measurement block + trailer
bytes; when the series-block `Close` fails its reported byte count is
still included, and an error result that already contains the trailer
still counts every phase's reported bytes. -/
theorem claim_C10 (env : Env) (p : IndexFiles) :
    (∀ n s, IndexFiles.WriteTo env p = .ok n s →
      ∃ adds, measAddsOf env p = some adds ∧ n = expectedN env p adds) ∧
    (∀ e, env.magicErr = none →
      encodeSeriesLoop env.sEnc [] (mergedSeries env p) = none →
      env.sEnc.closeErr (mergedSeries env p) = some e →
      IndexFiles.WriteTo env p
        = .err e (env.fileSignature.length + seriesBlockLen env p)
            [Chunk.magic, Chunk.series (mergedSeries env p)]) ∧
    (∀ e n s, IndexFiles.WriteTo env p = .err e n s →
      (∃ t, Chunk.trailer t ∈ s) →
      ∃ adds, measAddsOf env p = some adds ∧ n = expectedN env p adds) := by
  refine ⟨?_, ?_, ?_⟩
  · intro n s h
    obtain ⟨-, -, -, adds, hmadds, -, -, hn⟩ := WriteTo_ok_char env p n s h
    exact ⟨adds, hmadds, hn⟩
  · intro e hmg hloop hclose
    rw [mergedSeries] at hloop hclose
    simp [IndexFiles.WriteTo, hmg, IndexFiles.writeSeriesBlockTo, hloop,
      hclose, mergedSeries, seriesBlockLen]
  · intro e n s h htr
    rcases WriteTo_err_char env p e n s h with h1 | ⟨adds, h2, h3, -, -⟩
    · obtain ⟨t, ht⟩ := htr
      have := h1 (Chunk.trailer t) ht
      simp [Chunk.isTrailerChunk] at this
    · exact ⟨adds, h2, h3⟩

/-- Witness for C10 at a concrete environment and collection. -/
theorem claim_C10_witness :
    ∃ adds, measAddsOf envW [fileW] = some adds ∧
      11 = expectedN envW [fileW] adds :=
  (claim_C10 envW [fileW]).1 11 streamW (by decide)

end TSI1

namespace TSI1

theorem find?_entries_none (env : Env) (p : IndexFiles) (ents : List SeriesElem)
    (k : Bytes) :
    ∀ (ms : List MeasurementElem) (startN : Nat),
      (∀ m ∈ ms, m.name ≠ k) →
      (tagSetEntriesOf env p ents startN ms).find?
        (fun kv => kv.1 == k) = none
  | [], startN, _ => by simp [tagSetEntriesOf]
  | m :: rest, startN, hno => by
    simp only [tagSetEntriesOf, List.find?_append]
    rw [find?_entries_none env p ents k rest _
      (fun m' hm' => hno m' (List.mem_cons_of_mem m hm'))]
    have : ¬ (m.name == k) = true := by
      simpa using hno m (List.mem_cons_self m rest)
    simp [List.find?, this]
  termination_by ms => ms.length

theorem lookupTagSet_entries (env : Env) (p : IndexFiles)
    (ents : List SeriesElem) :
    ∀ (ms1 : List MeasurementElem) (m : MeasurementElem)
      (ms2 : List MeasurementElem) (startN : Nat)
      (old : List (Bytes × (Nat × Nat))),
      (((ms1 ++ m :: ms2).map (fun x => x.name)).Nodup) →
      lookupTagSet (tagSetEntriesOf env p ents startN (ms1 ++ m :: ms2) ++ old)
          m.name
        = (startN + (ms1.map (fun x => tagsetSize env p ents x.name)).sum,
           tagsetSize env p ents m.name)
  | [], m, ms2, startN, old, hnd => by
    simp only [List.nil_append, tagSetEntriesOf, lookupTagSet,
      List.append_assoc, List.find?_append]
    have hno : ∀ m' ∈ ms2, m'.name ≠ m.name := by
      intro m' hm' heq
      simp only [List.nil_append, List.map_cons, List.nodup_cons,
        List.mem_map] at hnd
      exact hnd.1 ⟨m', hm', heq⟩
    rw [find?_entries_none env p ents m.name ms2 _ hno]
    simp
  | m1 :: ms1, m, ms2, startN, old, hnd => by
    have hnd' : (((ms1 ++ m :: ms2).map (fun x => x.name)).Nodup) := by
      simp only [List.cons_append, List.map_cons, List.nodup_cons] at hnd
      exact hnd.2
    have IH := lookupTagSet_entries env p ents ms1 m ms2
      (startN + tagsetSize env p ents m1.name)
      ([(m1.name, (startN, tagsetSize env p ents m1.name))] ++ old) hnd'
    simp only [List.cons_append, tagSetEntriesOf, List.append_eq]
    rw [List.append_assoc]
    rw [IH]
    simp only [List.map_cons, List.sum_cons]
    congr 1
    omega
  termination_by ms1 => ms1.length

/-- C9: after pass 2 completes, the context's tagset map binds every
merged measurement name to exactly the position where its tag block
began and the bytes its encoder consumed; pass 3 records precisely that
pair for each measurement, and a name absent from the map would be
recorded as offset 0 and size 0. -/
theorem claim_C9 (env : Env) (p : IndexFiles) (ctx ctx' : WCtx)
    (hnd : ((IndexFiles.MeasurementIterator env p).map (fun m => m.name)).Nodup)
    (h : IndexFiles.writeTagsetsTo env p ctx = .ok ctx') :
    (∀ ms1 m ms2, IndexFiles.MeasurementIterator env p = ms1 ++ m :: ms2 →
      lookupTagSet ctx'.tagSets m.name
        = (ctx.n + (ms1.map (fun x => tagsetSize env p ctx.encEntries x.name)).sum,
           tagsetSize env p ctx.encEntries m.name)) ∧
    (∀ adds, buildMeasAdds env p ctx'.encEntries ctx'.tagSets
        (IndexFiles.MeasurementIterator env p) = some adds →
      adds.map (fun a => (a.name, a.offset, a.size))
        = (IndexFiles.MeasurementIterator env p).map
            (fun m => (m.name, lookupTagSet ctx'.tagSets m.name))) ∧
    (∀ (tagSets : List (Bytes × (Nat × Nat))) (name : Bytes),
      (∀ kv ∈ tagSets, kv.1 ≠ name) → lookupTagSet tagSets name = (0, 0)) := by
  rw [IndexFiles.writeTagsetsTo] at h
  obtain ⟨-, -, -, -, hts⟩ := writeTagsetsLoop_ok env p _ ctx ctx' h
  refine ⟨?_, ?_, ?_⟩
  · intro ms1 m ms2 hsplit
    rw [hts, hsplit]
    exact lookupTagSet_entries env p ctx.encEntries ms1 m ms2 ctx.n ctx.tagSets
      (hsplit ▸ hnd)
  · intro adds hadds
    rw [buildMeasAdds_some env p ctx'.encEntries ctx'.tagSets _ adds hadds,
      List.map_map]
    apply List.map_congr_left
    intro m _
    rfl
  · intro tagSets name hno
    rw [lookupTagSet]
    rw [List.find?_eq_none.mpr]
    intro kv hkv
    simpa using hno kv hkv

/-- Witness for C9 at a concrete environment, collection and context. -/
theorem claim_C9_witness :
    (∀ ms1 m ms2, IndexFiles.MeasurementIterator envW [fileW] = ms1 ++ m :: ms2 →
      lookupTagSet ctxW2.tagSets m.name
        = (ctxW.n + (ms1.map
            (fun x => tagsetSize envW [fileW] ctxW.encEntries x.name)).sum,
           tagsetSize envW [fileW] ctxW.encEntries m.name)) ∧
    (∀ adds, buildMeasAdds envW [fileW] ctxW2.encEntries ctxW2.tagSets
        (IndexFiles.MeasurementIterator envW [fileW]) = some adds →
      adds.map (fun a => (a.name, a.offset, a.size))
        = (IndexFiles.MeasurementIterator envW [fileW]).map
            (fun m => (m.name, lookupTagSet ctxW2.tagSets m.name))) ∧
    (∀ (tagSets : List (Bytes × (Nat × Nat))) (name : Bytes),
      (∀ kv ∈ tagSets, kv.1 ≠ name) → lookupTagSet tagSets name = (0, 0)) :=
  claim_C9 envW [fileW] ctxW ctxW2 (by decide) (by decide)

end TSI1

namespace TSI1

theorem writeTagsetTo_payload_encEntries (env : Env) (p : IndexFiles)
    (name : Bytes) (ctx : WCtx) :
    ((IndexFiles.writeTagsetTo env p name ctx).payload).encEntries
      = ctx.encEntries := by
  simp only [IndexFiles.writeTagsetTo, IndexFiles.TagKeyIterator]
  split
  · rfl
  · rfl
  · split
    · rfl
    · rfl

theorem encodeTagValuesLoop_no_panic (env : Env) (p : IndexFiles)
    (tm : TagEncModel) (ents : List SeriesElem) (name key : Bytes) :
    ∀ (vs : List TagValueElem) (acc : List TagCall),
      (∀ ve ∈ vs, resolveSortedIDs (env.sEnc.offset ents) env.appendSeriesKey
        (IndexFiles.TagValueSeriesIterator env p name key ve.value) ≠ none) →
      ∀ a, encodeTagValuesLoop env p tm ents name key acc vs ≠ .panicked a
  | [], acc, _, a => by simp [encodeTagValuesLoop]
  | ve :: rest, acc, hno, a => by
    intro hcontra
    simp only [encodeTagValuesLoop] at hcontra
    cases hres : resolveSortedIDs (env.sEnc.offset ents) env.appendSeriesKey
        (IndexFiles.TagValueSeriesIterator env p name key ve.value) with
    | none => exact absurd hres (hno ve (List.mem_cons_self ve rest))
    | some ids =>
      simp only [hres] at hcontra
      cases henc : tm.encodeErr acc (TagCall.value ve.value ve.deleted ids) with
      | some e => simp only [henc] at hcontra; cases hcontra
      | none =>
        simp only [henc] at hcontra
        exact absurd hcontra (encodeTagValuesLoop_no_panic env p tm ents name
          key rest _ (fun ve' hv' => hno ve' (List.mem_cons_of_mem ve hv')) a)
  termination_by vs => vs.length

theorem encodeTagKeysLoop_no_panic (env : Env) (p : IndexFiles)
    (tm : TagEncModel) (ents : List SeriesElem) (name : Bytes) :
    ∀ (ks : List TagKeyElem) (acc : List TagCall),
      (∀ ke ∈ ks, ∀ ve ∈ ke.values,
        resolveSortedIDs (env.sEnc.offset ents) env.appendSeriesKey
          (IndexFiles.TagValueSeriesIterator env p name ke.key ve.value) ≠ none) →
      ∀ a, encodeTagKeysLoop env p tm ents name acc ks ≠ .panicked a
  | [], acc, _, a => by simp [encodeTagKeysLoop]
  | ke :: rest, acc, hno, a => by
    intro hcontra
    simp only [encodeTagKeysLoop] at hcontra
    cases henc : tm.encodeErr acc (TagCall.key ke.key ke.deleted) with
    | some e => simp only [henc] at hcontra; cases hcontra
    | none =>
      simp only [henc] at hcontra
      cases hv : encodeTagValuesLoop env p tm ents name ke.key
          (acc ++ [TagCall.key ke.key ke.deleted]) ke.values with
      | err e a' => simp only [hv] at hcontra; cases hcontra
      | panicked a' =>
        exact absurd hv (encodeTagValuesLoop_no_panic env p tm ents name ke.key
          ke.values _ (hno ke (List.mem_cons_self ke rest)) a')
      | ok calls1 =>
        simp only [hv] at hcontra
        exact absurd hcontra (encodeTagKeysLoop_no_panic env p tm ents name
          rest calls1 (fun ke' hk' => hno ke' (List.mem_cons_of_mem ke hk')) a)
  termination_by ks => ks.length

theorem writeTagsetTo_no_panic (env : Env) (p : IndexFiles) (name : Bytes)
    (ctx : WCtx)
    (hno : ∀ ke ∈ (IndexFiles.TagKeyIterator env p name).1, ∀ ve ∈ ke.values,
      resolveSortedIDs (env.sEnc.offset ctx.encEntries) env.appendSeriesKey
        (IndexFiles.TagValueSeriesIterator env p name ke.key ve.value) ≠ none) :
    ∀ a, IndexFiles.writeTagsetTo env p name ctx ≠ .panicked a := by
  intro a hcontra
  simp only [IndexFiles.writeTagsetTo, IndexFiles.TagKeyIterator] at hcontra
  cases hk : encodeTagKeysLoop env p (env.tagEnc name) ctx.encEntries name []
      (env.mergeTagKeyIterators (collectItrs (fun f => f.tagKeyItr name) [] p)) with
  | panicked calls =>
    exact absurd hk (encodeTagKeysLoop_no_panic env p (env.tagEnc name)
      ctx.encEntries name _ []
      (by simpa [IndexFiles.TagKeyIterator] using hno) calls)
  | err e calls => simp only [hk] at hcontra; cases hcontra
  | ok calls =>
    simp only [hk] at hcontra
    cases hcl : (env.tagEnc name).closeErr calls with
    | some e => simp only [hcl] at hcontra; cases hcontra
    | none => simp only [hcl] at hcontra; cases hcontra

theorem writeTagsetsLoop_no_panic (env : Env) (p : IndexFiles)
    (ents : List SeriesElem) :
    ∀ (ms : List MeasurementElem) (ctx : WCtx),
      ctx.encEntries = ents →
      (∀ m ∈ ms, ∀ ke ∈ (IndexFiles.TagKeyIterator env p m.name).1,
        ∀ ve ∈ ke.values,
        resolveSortedIDs (env.sEnc.offset ents) env.appendSeriesKey
          (IndexFiles.TagValueSeriesIterator env p m.name ke.key ve.value)
          ≠ none) →
      ∀ a, writeTagsetsLoop env p ctx ms ≠ .panicked a
  | [], ctx, _, _, a => by simp [writeTagsetsLoop]
  | m :: rest, ctx, hents, hno, a => by
    intro hcontra
    simp only [writeTagsetsLoop] at hcontra
    cases hw : IndexFiles.writeTagsetTo env p m.name ctx with
    | panicked a' =>
      refine absurd hw (writeTagsetTo_no_panic env p m.name ctx ?_ a')
      rw [hents]
      exact hno m (List.mem_cons_self m rest)
    | err e a' => simp only [hw] at hcontra; cases hcontra
    | ok ctx1 =>
      simp only [hw] at hcontra
      have hents1 : ctx1.encEntries = ents := by
        have := writeTagsetTo_payload_encEntries env p m.name ctx
        rw [hw] at this
        simpa [PResult.payload, hents] using this
      exact absurd hcontra (writeTagsetsLoop_no_panic env p ents rest ctx1
        hents1 (fun m' hm' => hno m' (List.mem_cons_of_mem m hm')) a)
  termination_by ms => ms.length

theorem buildMeasAdds_no_none (env : Env) (p : IndexFiles)
    (ents : List SeriesElem) (tagSets : List (Bytes × (Nat × Nat))) :
    ∀ (ms : List MeasurementElem),
      (∀ m ∈ ms, resolveSortedIDs (env.sEnc.offset ents) env.appendSeriesKey
        (IndexFiles.MeasurementSeriesIterator env p m.name) ≠ none) →
      buildMeasAdds env p ents tagSets ms ≠ none
  | [], _ => by simp [buildMeasAdds]
  | m :: rest, hno => by
    intro hcontra
    simp only [buildMeasAdds] at hcontra
    cases hres : resolveSortedIDs (env.sEnc.offset ents) env.appendSeriesKey
        (IndexFiles.MeasurementSeriesIterator env p m.name) with
    | none => exact absurd hres (hno m (List.mem_cons_self m rest))
    | some ids =>
      simp only [hres] at hcontra
      cases hrest : buildMeasAdds env p ents tagSets rest with
      | none =>
        exact absurd hrest (buildMeasAdds_no_none env p ents tagSets rest
          (fun m' hm' => hno m' (List.mem_cons_of_mem m hm')))
      | some adds => simp only [hrest] at hcontra; cases hcontra
  termination_by ms => ms.length

theorem writeSeriesBlockTo_no_panic (env : Env) (p : IndexFiles) (ctx : WCtx) :
    ∀ a, IndexFiles.writeSeriesBlockTo env p ctx ≠ .panicked a := by
  intro a hcontra
  simp only [IndexFiles.writeSeriesBlockTo] at hcontra
  cases hl : encodeSeriesLoop env.sEnc [] (IndexFiles.SeriesIterator env p) with
  | some pr =>
    obtain ⟨e, done⟩ := pr
    simp only [hl] at hcontra
    cases hcontra
  | none =>
    simp only [hl] at hcontra
    cases hc : env.sEnc.closeErr (IndexFiles.SeriesIterator env p) with
    | some e => simp only [hc] at hcontra; cases hcontra
    | none => simp only [hc] at hcontra; cases hcontra

end TSI1

namespace TSI1

theorem writeMeasurementBlockTo_no_panic (env : Env) (p : IndexFiles)
    (ctx : WCtx)
    (hno : ∀ m ∈ IndexFiles.MeasurementIterator env p,
      resolveSortedIDs (env.sEnc.offset ctx.encEntries) env.appendSeriesKey
        (IndexFiles.MeasurementSeriesIterator env p m.name) ≠ none) :
    ∀ a, IndexFiles.writeMeasurementBlockTo env p ctx ≠ .panicked a := by
  intro a hcontra
  simp only [IndexFiles.writeMeasurementBlockTo] at hcontra
  cases hb : buildMeasAdds env p ctx.encEntries ctx.tagSets
      (IndexFiles.MeasurementIterator env p) with
  | none =>
    exact absurd hb
      (buildMeasAdds_no_none env p ctx.encEntries ctx.tagSets _ hno)
  | some adds =>
    simp only [hb] at hcontra
    cases he : env.mw.err adds with
    | some e => simp only [he] at hcontra; cases hcontra
    | none => simp only [he] at hcontra; cases hcontra

/-- C1: a series-identifier lookup returning the reserved value zero in
pass 2 or 3 aborts the compaction (the collection loop yields no list);
and when every series the later passes iterate was also yielded by the
pass-1 merged series iterator (whose keys the encoder resolves to
nonzero identifiers), `WriteTo` never panics. -/
theorem claim_C1 (env : Env) (p : IndexFiles)
    (hcontract : ∀ e ∈ mergedSeries env p,
      env.sEnc.offset (mergedSeries env p) (seriesKeyOf env e) ≠ 0)
    (hsub : ∀ e ∈ pass2SeriesOf env p ++ pass3SeriesOf env p,
      ∃ e' ∈ mergedSeries env p, seriesKeyOf env e = seriesKeyOf env e') :
    (∀ (off : Bytes → Nat) (ask : Bytes → Bytes → Bytes) (l : List SeriesElem),
      (∃ e ∈ l, off (ask e.name e.tags) = 0) →
      lookupSeriesIDs off ask l = none) ∧
    (∀ s, IndexFiles.WriteTo env p ≠ .panicked s) := by
  constructor
  · intro off ask l hex
    exact (lookupSeriesIDs_none_iff off ask l).mpr hex
  · have hkey : ∀ e ∈ pass2SeriesOf env p ++ pass3SeriesOf env p,
        env.sEnc.offset (mergedSeries env p) (seriesKeyOf env e) ≠ 0 := by
      intro e he
      obtain ⟨e', he', hk⟩ := hsub e he
      rw [seriesKeyOf] at hk
      rw [seriesKeyOf, hk]
      exact hcontract e' he'
    have h2 : ∀ m ∈ IndexFiles.MeasurementIterator env p,
        ∀ ke ∈ (IndexFiles.TagKeyIterator env p m.name).1, ∀ ve ∈ ke.values,
        resolveSortedIDs (env.sEnc.offset (mergedSeries env p))
          env.appendSeriesKey
          (IndexFiles.TagValueSeriesIterator env p m.name ke.key ve.value)
          ≠ none := by
      intro m hm ke hke ve hve hres
      obtain ⟨e, he, hz⟩ := (resolveSortedIDs_none_iff _ _ _).mp hres
      refine hkey e ?_ hz
      rw [List.mem_append]
      left
      rw [pass2SeriesOf]
      refine List.mem_flatMap.mpr ⟨m, hm, ?_⟩
      refine List.mem_flatMap.mpr ⟨ke, hke, ?_⟩
      exact List.mem_flatMap.mpr ⟨ve, hve, he⟩
    have h3 : ∀ m ∈ IndexFiles.MeasurementIterator env p,
        resolveSortedIDs (env.sEnc.offset (mergedSeries env p))
          env.appendSeriesKey
          (IndexFiles.MeasurementSeriesIterator env p m.name) ≠ none := by
      intro m hm hres
      obtain ⟨e, he, hz⟩ := (resolveSortedIDs_none_iff _ _ _).mp hres
      refine hkey e ?_ hz
      rw [List.mem_append]
      right
      rw [pass3SeriesOf]
      exact List.mem_flatMap.mpr ⟨m, hm, he⟩
    intro s hcontra
    simp only [IndexFiles.WriteTo] at hcontra
    cases hmg : env.magicErr with
    | some e => simp only [hmg] at hcontra; cases hcontra
    | none =>
      simp only [hmg, List.nil_append, Nat.zero_add] at hcontra
      cases hsb : IndexFiles.writeSeriesBlockTo env p
          { stream := [Chunk.magic], n := env.fileSignature.length,
            encEntries := [], tagSets := [] } with
      | panicked a => exact absurd hsb (writeSeriesBlockTo_no_panic env p _ a)
      | err e a => simp only [hsb] at hcontra; cases hcontra
      | ok ctx2 =>
        simp only [hsb] at hcontra
        obtain ⟨-, -, hctx2⟩ := writeSeriesBlockTo_ok env p _ ctx2 hsb
        have h2enc : ctx2.encEntries = mergedSeries env p := by
          rw [hctx2]; rfl
        cases hts : IndexFiles.writeTagsetsTo env p ctx2 with
        | panicked a =>
          rw [IndexFiles.writeTagsetsTo] at hts
          exact absurd hts (writeTagsetsLoop_no_panic env p
            (mergedSeries env p) _ ctx2 h2enc h2 a)
        | err e a => simp only [hts] at hcontra; cases hcontra
        | ok ctx3 =>
          simp only [hts] at hcontra
          rw [IndexFiles.writeTagsetsTo] at hts
          obtain ⟨-, henc3, -, -, -⟩ :=
            writeTagsetsLoop_ok env p _ ctx2 ctx3 hts
          cases hmb : IndexFiles.writeMeasurementBlockTo env p ctx3 with
          | panicked a =>
            refine absurd hmb
              (writeMeasurementBlockTo_no_panic env p ctx3 ?_ a)
            rw [henc3, h2enc]
            exact h3
          | err e a => simp only [hmb] at hcontra; cases hcontra
          | ok ctx4 =>
            simp only [hmb] at hcontra
            split at hcontra
            · cases hcontra
            · split at hcontra
              · cases hcontra
              · cases hcontra

/-- Witness for C1 at a concrete environment and collection. -/
theorem claim_C1_witness :
    (∀ (off : Bytes → Nat) (ask : Bytes → Bytes → Bytes) (l : List SeriesElem),
      (∃ e ∈ l, off (ask e.name e.tags) = 0) →
      lookupSeriesIDs off ask l = none) ∧
    (∀ s, IndexFiles.WriteTo envW [fileW] ≠ .panicked s) :=
  claim_C1 envW [fileW] (by decide) (by decide)

end TSI1

namespace TSI1

theorem encodeTagValuesLoop_good (env : Env) (p : IndexFiles) (tm : TagEncModel)
    (ents : List SeriesElem) (name key : Bytes) :
    ∀ (vs : List TagValueElem) (acc : List TagCall) (r : PResult (List TagCall)),
      encodeTagValuesLoop env p tm ents name key acc vs = r →
      (∀ ve ∈ vs,
        ((IndexFiles.TagValueSeriesIterator env p name key ve.value).map
          (fun e => env.sEnc.offset ents
            (env.appendSeriesKey e.name e.tags))).Nodup) →
      (∀ c ∈ acc, callIDsSorted c) →
      ∀ c ∈ r.payload, callIDsSorted c
  | [], acc, r, hr, _, hacc => by
    simp only [encodeTagValuesLoop] at hr
    rw [← hr]
    simpa [PResult.payload] using hacc
  | ve :: rest, acc, r, hr, hnd, hacc => by
    simp only [encodeTagValuesLoop] at hr
    cases hres : resolveSortedIDs (env.sEnc.offset ents) env.appendSeriesKey
        (IndexFiles.TagValueSeriesIterator env p name key ve.value) with
    | none =>
      simp only [hres] at hr
      rw [← hr]
      simpa [PResult.payload] using hacc
    | some ids =>
      simp only [hres] at hr
      cases henc : tm.encodeErr acc (TagCall.value ve.value ve.deleted ids) with
      | some e =>
        simp only [henc] at hr
        rw [← hr]
        simpa [PResult.payload] using hacc
      | none =>
        simp only [henc] at hr
        refine encodeTagValuesLoop_good env p tm ents name key rest _ r hr
          (fun ve' hv' => hnd ve' (List.mem_cons_of_mem ve hv')) ?_
        intro c hc
        rcases List.mem_append.mp hc with h1 | h2
        · exact hacc c h1
        · rcases List.mem_singleton.mp h2 with rfl
          exact resolveSortedIDs_sorted_lt _ _ _ ids hres
            (hnd ve (List.mem_cons_self ve rest))
  termination_by vs => vs.length

theorem encodeTagKeysLoop_good (env : Env) (p : IndexFiles) (tm : TagEncModel)
    (ents : List SeriesElem) (name : Bytes) :
    ∀ (ks : List TagKeyElem) (acc : List TagCall) (r : PResult (List TagCall)),
      encodeTagKeysLoop env p tm ents name acc ks = r →
      (∀ ke ∈ ks, ∀ ve ∈ ke.values,
        ((IndexFiles.TagValueSeriesIterator env p name ke.key ve.value).map
          (fun e => env.sEnc.offset ents
            (env.appendSeriesKey e.name e.tags))).Nodup) →
      (∀ c ∈ acc, callIDsSorted c) →
      ∀ c ∈ r.payload, callIDsSorted c
  | [], acc, r, hr, _, hacc => by
    simp only [encodeTagKeysLoop] at hr
    rw [← hr]
    simpa [PResult.payload] using hacc
  | ke :: rest, acc, r, hr, hnd, hacc => by
    simp only [encodeTagKeysLoop] at hr
    cases henc : tm.encodeErr acc (TagCall.key ke.key ke.deleted) with
    | some e =>
      simp only [henc] at hr
      rw [← hr]
      simpa [PResult.payload] using hacc
    | none =>
      simp only [henc] at hr
      have hacc1 : ∀ c ∈ acc ++ [TagCall.key ke.key ke.deleted],
          callIDsSorted c := by
        intro c hc
        rcases List.mem_append.mp hc with h1 | h2
        · exact hacc c h1
        · rcases List.mem_singleton.mp h2 with rfl
          trivial
      cases hv : encodeTagValuesLoop env p tm ents name ke.key
          (acc ++ [TagCall.key ke.key ke.deleted]) ke.values with
      | err e a' =>
        simp only [hv] at hr
        rw [← hr]
        have := encodeTagValuesLoop_good env p tm ents name ke.key ke.values _
          _ hv (hnd ke (List.mem_cons_self ke rest)) hacc1
        simpa [PResult.payload] using this
      | panicked a' =>
        simp only [hv] at hr
        rw [← hr]
        have := encodeTagValuesLoop_good env p tm ents name ke.key ke.values _
          _ hv (hnd ke (List.mem_cons_self ke rest)) hacc1
        simpa [PResult.payload] using this
      | ok calls1 =>
        simp only [hv] at hr
        have hc1 : ∀ c ∈ calls1, callIDsSorted c := by
          have := encodeTagValuesLoop_good env p tm ents name ke.key ke.values _
            _ hv (hnd ke (List.mem_cons_self ke rest)) hacc1
          simpa [PResult.payload] using this
        exact encodeTagKeysLoop_good env p tm ents name rest calls1 r hr
          (fun ke' hk' => hnd ke' (List.mem_cons_of_mem ke hk')) hc1
  termination_by ks => ks.length

theorem writeTagsetTo_good (env : Env) (p : IndexFiles) (name : Bytes)
    (ctx : WCtx) (r : PResult WCtx)
    (hr : IndexFiles.writeTagsetTo env p name ctx = r)
    (hnd : ∀ ke ∈ (IndexFiles.TagKeyIterator env p name).1, ∀ ve ∈ ke.values,
      ((IndexFiles.TagValueSeriesIterator env p name ke.key ve.value).map
        (fun e => env.sEnc.offset ctx.encEntries
          (env.appendSeriesKey e.name e.tags))).Nodup)
    (hstream : ∀ c ∈ ctx.stream, chunkIDsSorted c) :
    ∀ c ∈ r.payload.stream, chunkIDsSorted c := by
  simp only [IndexFiles.writeTagsetTo, IndexFiles.TagKeyIterator] at hr
  have hnd' : ∀ ke ∈ (env.mergeTagKeyIterators
      (collectItrs (fun f => f.tagKeyItr name) [] p)), ∀ ve ∈ ke.values,
      ((IndexFiles.TagValueSeriesIterator env p name ke.key ve.value).map
        (fun e => env.sEnc.offset ctx.encEntries
          (env.appendSeriesKey e.name e.tags))).Nodup := by
    simpa [IndexFiles.TagKeyIterator] using hnd
  cases hk : encodeTagKeysLoop env p (env.tagEnc name) ctx.encEntries name []
      (env.mergeTagKeyIterators (collectItrs (fun f => f.tagKeyItr name) [] p)) with
  | panicked calls =>
    simp only [hk] at hr
    rw [← hr]
    intro c hc
    simp only [PResult.payload] at hc
    rcases List.mem_append.mp hc with h1 | h2
    · exact hstream c h1
    · rcases List.mem_singleton.mp h2 with rfl
      have := encodeTagKeysLoop_good env p (env.tagEnc name) ctx.encEntries
        name _ [] _ hk hnd' (by simp)
      simpa [PResult.payload, chunkIDsSorted] using this
  | err e calls =>
    simp only [hk] at hr
    rw [← hr]
    intro c hc
    simp only [PResult.payload] at hc
    rcases List.mem_append.mp hc with h1 | h2
    · exact hstream c h1
    · rcases List.mem_singleton.mp h2 with rfl
      have := encodeTagKeysLoop_good env p (env.tagEnc name) ctx.encEntries
        name _ [] _ hk hnd' (by simp)
      simpa [PResult.payload, chunkIDsSorted] using this
  | ok calls =>
    simp only [hk] at hr
    have hcg : ∀ c ∈ calls, callIDsSorted c := by
      have := encodeTagKeysLoop_good env p (env.tagEnc name) ctx.encEntries
        name _ [] _ hk hnd' (by simp)
      simpa [PResult.payload] using this
    cases hcl : (env.tagEnc name).closeErr calls with
    | some e =>
      simp only [hcl] at hr
      rw [← hr]
      intro c hc
      simp only [PResult.payload] at hc
      rcases List.mem_append.mp hc with h1 | h2
      · exact hstream c h1
      · rcases List.mem_singleton.mp h2 with rfl
        exact hcg
    | none =>
      simp only [hcl] at hr
      rw [← hr]
      intro c hc
      simp only [PResult.payload] at hc
      rcases List.mem_append.mp hc with h1 | h2
      · exact hstream c h1
      · rcases List.mem_singleton.mp h2 with rfl
        exact hcg

end TSI1

namespace TSI1

theorem writeTagsetsLoop_good (env : Env) (p : IndexFiles)
    (ents : List SeriesElem) :
    ∀ (ms : List MeasurementElem) (ctx : WCtx) (r : PResult WCtx),
      writeTagsetsLoop env p ctx ms = r →
      ctx.encEntries = ents →
      (∀ m ∈ ms, ∀ ke ∈ (IndexFiles.TagKeyIterator env p m.name).1,
        ∀ ve ∈ ke.values,
        ((IndexFiles.TagValueSeriesIterator env p m.name ke.key ve.value).map
          (fun e => env.sEnc.offset ents
            (env.appendSeriesKey e.name e.tags))).Nodup) →
      (∀ c ∈ ctx.stream, chunkIDsSorted c) →
      ∀ c ∈ r.payload.stream, chunkIDsSorted c
  | [], ctx, r, hr, _, _, hstream => by
    simp only [writeTagsetsLoop] at hr
    rw [← hr]
    simpa [PResult.payload] using hstream
  | m :: rest, ctx, r, hr, hents, hnd, hstream => by
    simp only [writeTagsetsLoop] at hr
    have hndm : ∀ ke ∈ (IndexFiles.TagKeyIterator env p m.name).1,
        ∀ ve ∈ ke.values,
        ((IndexFiles.TagValueSeriesIterator env p m.name ke.key ve.value).map
          (fun e => env.sEnc.offset ctx.encEntries
            (env.appendSeriesKey e.name e.tags))).Nodup := by
      rw [hents]
      exact hnd m (List.mem_cons_self m rest)
    cases hw : IndexFiles.writeTagsetTo env p m.name ctx with
    | err e a =>
      simp only [hw] at hr
      rw [← hr]
      have := writeTagsetTo_good env p m.name ctx _ hw hndm hstream
      simpa [PResult.payload] using this
    | panicked a =>
      simp only [hw] at hr
      rw [← hr]
      have := writeTagsetTo_good env p m.name ctx _ hw hndm hstream
      simpa [PResult.payload] using this
    | ok ctx1 =>
      simp only [hw] at hr
      have hstream1 : ∀ c ∈ ctx1.stream, chunkIDsSorted c := by
        have := writeTagsetTo_good env p m.name ctx _ hw hndm hstream
        simpa [PResult.payload] using this
      have hents1 : ctx1.encEntries = ents := by
        have := writeTagsetTo_payload_encEntries env p m.name ctx
        rw [hw] at this
        simpa [PResult.payload, hents] using this
      exact writeTagsetsLoop_good env p ents rest ctx1 r hr hents1
        (fun m' hm' => hnd m' (List.mem_cons_of_mem m hm')) hstream1
  termination_by ms => ms.length

theorem writeSeriesBlockTo_good (env : Env) (p : IndexFiles) (ctx : WCtx)
    (r : PResult WCtx) (hr : IndexFiles.writeSeriesBlockTo env p ctx = r)
    (hstream : ∀ c ∈ ctx.stream, chunkIDsSorted c) :
    ∀ c ∈ r.payload.stream, chunkIDsSorted c := by
  simp only [IndexFiles.writeSeriesBlockTo] at hr
  cases hl : encodeSeriesLoop env.sEnc [] (IndexFiles.SeriesIterator env p) with
  | some pr =>
    obtain ⟨e, done⟩ := pr
    simp only [hl] at hr
    rw [← hr]
    intro c hc
    simp only [PResult.payload] at hc
    rcases List.mem_append.mp hc with h1 | h2
    · exact hstream c h1
    · rcases List.mem_singleton.mp h2 with rfl
      trivial
  | none =>
    simp only [hl] at hr
    cases hc : env.sEnc.closeErr (IndexFiles.SeriesIterator env p) with
    | some e =>
      simp only [hc] at hr
      rw [← hr]
      intro c hc'
      simp only [PResult.payload] at hc'
      rcases List.mem_append.mp hc' with h1 | h2
      · exact hstream c h1
      · rcases List.mem_singleton.mp h2 with rfl
        trivial
    | none =>
      simp only [hc] at hr
      rw [← hr]
      intro c hc'
      simp only [PResult.payload] at hc'
      rcases List.mem_append.mp hc' with h1 | h2
      · exact hstream c h1
      · rcases List.mem_singleton.mp h2 with rfl
        trivial

theorem buildMeasAdds_good (env : Env) (p : IndexFiles) (ents : List SeriesElem)
    (tagSets : List (Bytes × (Nat × Nat))) :
    ∀ (ms : List MeasurementElem) (adds : List MeasAdd),
      buildMeasAdds env p ents tagSets ms = some adds →
      (∀ m ∈ ms,
        ((IndexFiles.MeasurementSeriesIterator env p m.name).map
          (fun e => env.sEnc.offset ents
            (env.appendSeriesKey e.name e.tags))).Nodup) →
      ∀ a ∈ adds, List.Sorted (· < ·) a.ids
  | [], adds, hb, _ => by
    simp only [buildMeasAdds, Option.some.injEq] at hb
    rw [← hb]
    simp
  | m :: rest, adds, hb, hnd => by
    simp only [buildMeasAdds] at hb
    cases hres : resolveSortedIDs (env.sEnc.offset ents) env.appendSeriesKey
        (IndexFiles.MeasurementSeriesIterator env p m.name) with
    | none => simp only [hres] at hb; cases hb
    | some ids =>
      simp only [hres] at hb
      cases hrest : buildMeasAdds env p ents tagSets rest with
      | none => simp only [hrest] at hb; cases hb
      | some adds' =>
        simp only [hrest, Option.some.injEq] at hb
        rw [← hb]
        intro a ha
        rcases List.mem_cons.mp ha with rfl | h2
        · exact resolveSortedIDs_sorted_lt _ _ _ ids hres
            (hnd m (List.mem_cons_self m rest))
        · exact buildMeasAdds_good env p ents tagSets rest adds' hrest
            (fun m' hm' => hnd m' (List.mem_cons_of_mem m hm')) a h2
  termination_by ms => ms.length

theorem writeMeasurementBlockTo_good (env : Env) (p : IndexFiles) (ctx : WCtx)
    (r : PResult WCtx) (hr : IndexFiles.writeMeasurementBlockTo env p ctx = r)
    (hnd : ∀ m ∈ IndexFiles.MeasurementIterator env p,
      ((IndexFiles.MeasurementSeriesIterator env p m.name).map
        (fun e => env.sEnc.offset ctx.encEntries
          (env.appendSeriesKey e.name e.tags))).Nodup)
    (hstream : ∀ c ∈ ctx.stream, chunkIDsSorted c) :
    ∀ c ∈ r.payload.stream, chunkIDsSorted c := by
  simp only [IndexFiles.writeMeasurementBlockTo] at hr
  cases hb : buildMeasAdds env p ctx.encEntries ctx.tagSets
      (IndexFiles.MeasurementIterator env p) with
  | none =>
    simp only [hb] at hr
    rw [← hr]
    simpa [PResult.payload] using hstream
  | some adds =>
    simp only [hb] at hr
    have hadds : ∀ a ∈ adds, List.Sorted (· < ·) a.ids :=
      buildMeasAdds_good env p ctx.encEntries ctx.tagSets _ adds hb hnd
    cases he : env.mw.err adds with
    | some e =>
      simp only [he] at hr
      rw [← hr]
      intro c hc
      simp only [PResult.payload] at hc
      rcases List.mem_append.mp hc with h1 | h2
      · exact hstream c h1
      · rcases List.mem_singleton.mp h2 with rfl
        exact hadds
    | none =>
      simp only [he] at hr
      rw [← hr]
      intro c hc
      simp only [PResult.payload] at hc
      rcases List.mem_append.mp hc with h1 | h2
      · exact hstream c h1
      · rcases List.mem_singleton.mp h2 with rfl
        exact hadds

end TSI1

namespace TSI1

/-- C4: every series-identifier list handed to the tag-block encoder
(`EncodeValue`) or to the measurement block writer (`Add`) during
`WriteTo` is strictly ascending with no duplicates (the merged iterators
yield distinct series and the encoder resolves them to distinct
identifiers). -/
theorem claim_C4 (env : Env) (p : IndexFiles)
    (hv : ∀ m ∈ mergedMeasurements env p,
      ∀ ke ∈ (IndexFiles.TagKeyIterator env p m.name).1, ∀ ve ∈ ke.values,
      ((IndexFiles.TagValueSeriesIterator env p m.name ke.key ve.value).map
        (fun e => env.sEnc.offset (mergedSeries env p)
          (seriesKeyOf env e))).Nodup)
    (hm : ∀ m ∈ mergedMeasurements env p,
      ((IndexFiles.MeasurementSeriesIterator env p m.name).map
        (fun e => env.sEnc.offset (mergedSeries env p)
          (seriesKeyOf env e))).Nodup) :
    ∀ c ∈ (IndexFiles.WriteTo env p).streamOf, chunkIDsSorted c := by
  simp only [seriesKeyOf, mergedMeasurements, mergedSeries] at hv hm
  intro c hc
  simp only [IndexFiles.WriteTo] at hc
  cases hmg : env.magicErr with
  | some e => simp only [hmg, WriteResult.streamOf] at hc; cases hc
  | none =>
    simp only [hmg, List.nil_append, Nat.zero_add] at hc
    have hmagic : ∀ c ∈ ([Chunk.magic] : List Chunk), chunkIDsSorted c := by
      intro c hc
      rcases List.mem_singleton.mp hc with rfl
      trivial
    cases hsb : IndexFiles.writeSeriesBlockTo env p
        { stream := [Chunk.magic], n := env.fileSignature.length,
          encEntries := [], tagSets := [] } with
    | err e a =>
      simp only [hsb, WriteResult.streamOf] at hc
      have := writeSeriesBlockTo_good env p _ _ hsb hmagic
      simpa [PResult.payload] using this c hc
    | panicked a =>
      simp only [hsb, WriteResult.streamOf] at hc
      have := writeSeriesBlockTo_good env p _ _ hsb hmagic
      simpa [PResult.payload] using this c hc
    | ok ctx2 =>
      simp only [hsb] at hc
      obtain ⟨-, -, hctx2⟩ := writeSeriesBlockTo_ok env p _ ctx2 hsb
      have h2enc : ctx2.encEntries = IndexFiles.SeriesIterator env p := by
        rw [hctx2]
      have h2good : ∀ c ∈ ctx2.stream, chunkIDsSorted c := by
        have := writeSeriesBlockTo_good env p _ _ hsb hmagic
        simpa [PResult.payload] using this
      cases hts : IndexFiles.writeTagsetsTo env p ctx2 with
      | err e a =>
        simp only [hts, WriteResult.streamOf] at hc
        rw [IndexFiles.writeTagsetsTo] at hts
        have := writeTagsetsLoop_good env p (IndexFiles.SeriesIterator env p)
          _ ctx2 _ hts h2enc hv h2good
        simpa [PResult.payload] using this c hc
      | panicked a =>
        simp only [hts, WriteResult.streamOf] at hc
        rw [IndexFiles.writeTagsetsTo] at hts
        have := writeTagsetsLoop_good env p (IndexFiles.SeriesIterator env p)
          _ ctx2 _ hts h2enc hv h2good
        simpa [PResult.payload] using this c hc
      | ok ctx3 =>
        simp only [hts] at hc
        rw [IndexFiles.writeTagsetsTo] at hts
        obtain ⟨-, henc3, -, -, -⟩ := writeTagsetsLoop_ok env p _ ctx2 ctx3 hts
        have h3good : ∀ c ∈ ctx3.stream, chunkIDsSorted c := by
          have := writeTagsetsLoop_good env p (IndexFiles.SeriesIterator env p)
            _ ctx2 _ hts h2enc hv h2good
          simpa [PResult.payload] using this
        have h3enc : ctx3.encEntries = IndexFiles.SeriesIterator env p := by
          rw [henc3, h2enc]
        have hm3 : ∀ m ∈ IndexFiles.MeasurementIterator env p,
            ((IndexFiles.MeasurementSeriesIterator env p m.name).map
              (fun e => env.sEnc.offset ctx3.encEntries
                (env.appendSeriesKey e.name e.tags))).Nodup := by
          rw [h3enc]
          exact hm
        cases hmb : IndexFiles.writeMeasurementBlockTo env p ctx3 with
        | err e a =>
          simp only [hmb, WriteResult.streamOf] at hc
          have := writeMeasurementBlockTo_good env p ctx3 _ hmb hm3 h3good
          simpa [PResult.payload] using this c hc
        | panicked a =>
          simp only [hmb, WriteResult.streamOf] at hc
          have := writeMeasurementBlockTo_good env p ctx3 _ hmb hm3 h3good
          simpa [PResult.payload] using this c hc
        | ok ctx4 =>
          simp only [hmb] at hc
          have h4good : ∀ c ∈ ctx4.stream, chunkIDsSorted c := by
            have := writeMeasurementBlockTo_good env p ctx3 _ hmb hm3 h3good
            simpa [PResult.payload] using this
          split at hc
          all_goals
            first
            | (simp only [WriteResult.streamOf] at hc
               rcases List.mem_append.mp hc with h1 | h2
               · exact h4good c h1
               · rcases List.mem_singleton.mp h2 with rfl
                 trivial)
            | (split at hc
               all_goals
                 simp only [WriteResult.streamOf] at hc
                 rcases List.mem_append.mp hc with h1 | h2
                 · exact h4good c h1
                 · rcases List.mem_singleton.mp h2 with rfl
                   trivial)

/-- Witness for C4 at a concrete environment and collection: the
identifier list of the one `EncodeValue` call `WriteTo envW [fileW]`
makes is strictly ascending. -/
theorem claim_C4_witness : List.Sorted (· < ·) [1] := by
  have h := claim_C4 envW [fileW] (by decide) (by decide)
    (Chunk.tagset [3] [TagCall.key [5] false, TagCall.value [9] false [1]])
    (by decide)
  exact h (TagCall.value [9] false [1]) (by decide)

end TSI1
